import Mathlib

/-!
Verification development for the execute-syscall signature-extraction engine.

The Python sources are shallowly embedded over lists of characters:

* subCB            models the overstrike normalizer (regex sub of ".\x08")
* parseParam       models SyscallParameter.T_init (the parameter tokenizer)
* paramStr         models SyscallParameter.T_str (parameter serialization)
* parseDefLine     models Definition.T_init (the declaration parser)
* reprDefn         models Definition.T_repr
* findSynopsis, scanLines
                   model the synopsis extractor loops of
                   SyscallManual.T_parse_definition
* selectDef        models the disambiguation policy of
                   SyscallManual.T_parse_definition
* parseManual      models the whole lookup on one document

Python exceptions are modelled by the error type PErr; every uncaught
exception in the source corresponds to an Except.error value here.
-/

set_option maxRecDepth 10000

abbrev Str := List Char

/-- The backspace control character, written "\b" inside Python string
literals (it is a literal character there, not a regex word boundary). -/
def bsChar : Char := '\x08'

/-- ASCII whitespace as recognised by Python str.split / str.strip. -/
def pyIsSpace (c : Char) : Bool :=
  c == ' ' || c == '\t' || c == '\n' || c == '\x0b' || c == '\x0c' || c == '\r'

/-- Identifier-like characters (letters, digits, underscore); used to
describe canonical fragments in the amended round-trip statements. -/
def plainChar (c : Char) : Bool :=
  (97 ≤ c.toNat && c.toNat ≤ 122) || (65 ≤ c.toNat && c.toNat ≤ 90) ||
  (48 ≤ c.toNat && c.toNat ≤ 57) || c.toNat == 95

/-- pat is a prefix of s (models str.startswith). -/
def prefixB : Str → Str → Bool
  | [], _ => true
  | _ :: _, [] => false
  | p :: ps, c :: cs => p == c && prefixB ps cs

/-- pat is a suffix of s (models str.endswith). -/
def suffixB (pat s : Str) : Bool := prefixB pat.reverse s.reverse

/-- pat occurs as a contiguous substring of s (models the Python "in" test). -/
def hasSub (pat : Str) : Str → Bool
  | [] => prefixB pat []
  | c :: rest => prefixB pat (c :: rest) || hasSub pat rest

/-- Index of the first occurrence of pat in s (models str.find when the
caller has checked membership; none corresponds to find returning -1). -/
def idxOfSub (pat : Str) : Str → Option Nat
  | [] => if prefixB pat [] then some 0 else none
  | c :: rest =>
    if prefixB pat (c :: rest) then some 0 else (idxOfSub pat rest).map (· + 1)

/-- Index of the last occurrence of pat in s (models str.rfind when the
caller has checked membership). -/
def lastIdxOfSub (pat s : Str) : Option Nat :=
  (idxOfSub pat.reverse s.reverse).map (fun k => s.length - pat.length - k)

def dropLastWhile (p : Char → Bool) (s : Str) : Str := (s.reverse.dropWhile p).reverse

/-- Models str.strip() with no argument. -/
def pyStrip (s : Str) : Str := dropLastWhile pyIsSpace (s.dropWhile pyIsSpace)

/-- Models str.strip(cs) for a set of characters cs. -/
def pyStripChars (cs : List Char) (s : Str) : Str :=
  dropLastWhile (fun c => cs.contains c) (s.dropWhile (fun c => cs.contains c))

/-- Models re.compile(".\x08").sub("", line): a left-to-right scan removing
each non-newline character that is immediately followed by a backspace. -/
def subCB : Str → Str
  | [] => []
  | [c] => [c]
  | a :: b :: rest =>
    if a != '\n' && b == bsChar then subCB rest else a :: subCB (b :: rest)

def splitWSgo : Str → Str → List Str
  | acc, [] => if acc.isEmpty then [] else [acc.reverse]
  | acc, c :: rest =>
    if pyIsSpace c then
      if acc.isEmpty then splitWSgo [] rest else acc.reverse :: splitWSgo [] rest
    else splitWSgo (c :: acc) rest

/-- Models str.split() with no argument (whitespace tokenization). -/
def pySplitWS (s : Str) : List Str := splitWSgo [] s

def tokCount (s : Str) : Nat := (pySplitWS s).length

/-- Models str.split(None, 1) in the context where the caller has already
checked that at least two whitespace-separated tokens exist: returns the
first token and the remainder (with the separating run consumed).  Returns
none when the string has fewer than two tokens. -/
def pySplit1WS (s : Str) : Option (Str × Str) :=
  if ((s.dropWhile pyIsSpace).takeWhile (fun c => !pyIsSpace c)).isEmpty
      || (((s.dropWhile pyIsSpace).dropWhile (fun c => !pyIsSpace c)).dropWhile
          pyIsSpace).isEmpty
  then none
  else some ((s.dropWhile pyIsSpace).takeWhile (fun c => !pyIsSpace c),
    ((s.dropWhile pyIsSpace).dropWhile (fun c => !pyIsSpace c)).dropWhile pyIsSpace)

/-- Models the two-variable unpacking of str.rsplit(None, 1): the part
before the last whitespace run and the final token.  Returns none when the
string has fewer than two tokens, in which case the Python unpacking raises
ValueError. -/
def pyRsplit1 (s : Str) : Option (Str × Str) :=
  if ((s.reverse.dropWhile pyIsSpace).takeWhile (fun c => !pyIsSpace c)).isEmpty
      || (((s.reverse.dropWhile pyIsSpace).dropWhile (fun c => !pyIsSpace c)).dropWhile
          pyIsSpace).isEmpty
  then none
  else some
    ((((s.reverse.dropWhile pyIsSpace).dropWhile (fun c => !pyIsSpace c)).dropWhile
        pyIsSpace).reverse,
      ((s.reverse.dropWhile pyIsSpace).takeWhile (fun c => !pyIsSpace c)).reverse)

/-- Models str.replace("* ", "*"). -/
def replaceStarSpace : Str → Str
  | [] => []
  | [c] => [c]
  | a :: b :: rest =>
    if a = '*' ∧ b = ' ' then '*' :: replaceStarSpace rest
    else a :: replaceStarSpace (b :: rest)

def joinSp : List Str → Str
  | [] => []
  | [t] => t
  | t :: ts => t ++ ' ' :: joinSp ts

/-- Models " ".join(s.split()). -/
def normWS (s : Str) : Str := joinSp (pySplitWS s)

def splitCommaSpaceGo : Str → Str → List Str
  | acc, [] => [acc.reverse]
  | acc, [c] => [(c :: acc).reverse]
  | acc, a :: b :: rest =>
    if a = ',' ∧ b = ' ' then acc.reverse :: splitCommaSpaceGo [] rest
    else splitCommaSpaceGo (a :: acc) (b :: rest)

/-- Models str.split(", "). -/
def splitCommaSpace (s : Str) : List Str := splitCommaSpaceGo [] s

/-- Splits at the first opening parenthesis, which is dropped; models the
two-variable unpacking of line.split("(", 1); none models the ValueError
raised when no parenthesis is present. -/
def splitFirstParen : Str → Option (Str × Str)
  | [] => none
  | c :: rest =>
    if c = '(' then some ([], rest)
    else (splitFirstParen rest).map (fun pr => (c :: pr.1, pr.2))

/-- Each uncaught Python exception of the engine, by raise site. -/
inductive PErr where
  | synopsisMissing
  | descriptionMissing
  | joinIndex
  | valueError
  | unexpectedPart
  | assertRoundTrip
  | assertSimilar
deriving DecidableEq, Repr

def dots : Str := "...".data
def parenStarPat : Str := " (*".data
def bracketsTok : Str := "[]".data
def kwUnsigned : Str := "unsigned".data
def kwConst : Str := "const".data
def kwStruct : Str := "struct".data
def kwUnion : Str := "union".data
def kwEnum : Str := "enum".data
def starConstTok : Str := "*const".data
def voidTok : Str := "void".data
def parenSemiChars : List Char := ['(', ')', ';']
def synopsisTok : Str := "SYNOPSIS".data
def descriptionTok : Str := "DESCRIPTION".data
def unimplTok : Str := "Unimplemented".data
def typedefTok : Str := "typedef".data
def commentOpen : Str := "/*".data
def commentClose : Str := "*/".data
def closeParenSemi : Str := ");".data

/-- Descriptor for one parameter, mirroring the SyscallParameter fields. -/
structure Param where
  ptype : Str := []
  pname : Str := []
  ellipsis : Bool := false
  enum : Bool := false
  array : Bool := false
  const : Bool := false
  union : Bool := false
  struct : Bool := false
  pointer : Bool := false
  unsigned : Bool := false
  function : Bool := false
  const_pointer : Bool := false
deriving DecidableEq, Repr

/-- The while loop of SyscallParameter.T_init that peels leading tokens off
the type, with explicit fuel (the loop always terminates because the type
shrinks; peelType supplies sufficient fuel). -/
def peelF : Nat → Param → Except PErr Param
  | 0, p => .ok p
  | fuel + 1, p =>
    match pySplit1WS p.ptype with
    | none => .ok p
    | some (item, rest) =>
      if item = kwUnsigned then peelF fuel { p with unsigned := true, ptype := rest }
      else if item = kwConst then peelF fuel { p with const := true, ptype := rest }
      else if item = kwStruct then peelF fuel { p with struct := true, ptype := rest }
      else if item = kwUnion then peelF fuel { p with union := true, ptype := rest }
      else if item = kwEnum then peelF fuel { p with enum := true, ptype := rest }
      else if rest = starConstTok then peelF fuel { p with const_pointer := true, ptype := item }
      else .error .unexpectedPart

def peelType (p : Param) : Except PErr Param := peelF (p.ptype.length + 1) p

/-- Models SyscallParameter.T_init: parse one parameter fragment.  An error
models the exception raised on an unrecognized fragment. -/
def parseParam (s : Str) : Except PErr Param :=
  if s = dots then .ok { ellipsis := true }
  else
    match
      (if suffixB [')'] s then
        match idxOfSub parenStarPat s with
        | some i => Except.ok (true, pyStrip (s.take i), pyStrip (s.drop i))
        | none =>
          Except.ok (true, pyStrip (s.take (s.length - 1)), pyStrip (s.drop (s.length - 1)))
      else
        match pyRsplit1 s with
        | some (t, n) => Except.ok (false, t, n)
        | none => Except.error .valueError : Except PErr (Bool × Str × Str))
    with
    | .error e => .error e
    | .ok (fn, ty0, nm0) =>
      let st1 := if prefixB ['*'] nm0 then (true, nm0.drop 1) else (false, nm0)
      let st2 :=
        if suffixB bracketsTok st1.2 then (true, st1.2.take (st1.2.length - 2))
        else (false, st1.2)
      peelType
        { ptype := ty0, pname := st2.2, pointer := st1.1, array := st2.1, function := fn }

def qualStr (p : Param) : Str :=
  (if p.const then "const ".data else []) ++
  (if p.struct then "struct ".data else []) ++
  (if p.union then "union ".data else []) ++
  (if p.enum then "enum ".data else []) ++
  (if p.unsigned then "unsigned ".data else [])

def paramTail (p : Param) : Str :=
  (if p.const_pointer then "*const ".data else []) ++
  (if p.pointer then ['*'] else []) ++
  p.pname ++
  (if p.array then "[]".data else [])

/-- Models SyscallParameter.T_str: serialize a descriptor in the fixed
order const, struct, union, enum, unsigned, type, *const, *, name, []. -/
def paramStr (p : Param) : Str :=
  if p.ellipsis then dots else qualStr p ++ p.ptype ++ ' ' :: paramTail p

/-- One parsed declaration, mirroring the Definition fields. -/
structure Defn where
  ret_type : Str
  name : Str
  parameters : List Param
deriving DecidableEq, Repr

def mapExcept (f : α → Except PErr β) : List α → Except PErr (List β)
  | [] => .ok []
  | a :: as =>
    match f a with
    | .error e => .error e
    | .ok b =>
      match mapExcept f as with
      | .error e => .error e
      | .ok bs => .ok (b :: bs)

/-- The per-fragment body of the loop in Definition.T_init: whitespace
normalization, reattachment of lone pointer stars, tokenization, and the
round-trip assert (an error models the AssertionError). -/
def parseDefParam (frag : Str) : Except PErr Param :=
  let cleaned := replaceStarSpace (normWS frag)
  match parseParam cleaned with
  | .error e => .error e
  | .ok p => if paramStr p = cleaned then .ok p else .error .assertRoundTrip

/-- Models Definition.T_init: parse one candidate declaration line. -/
def parseDefLine (line : Str) : Except PErr Defn :=
  match splitFirstParen line with
  | none => .error .valueError
  | some (head, ptail) =>
    match pyRsplit1 head with
    | none => .error .valueError
    | some (rt0, nm0) =>
      let rn := if prefixB ['*'] nm0 then (rt0 ++ ['*'], nm0.drop 1) else (rt0, nm0)
      let plist := splitCommaSpace (pyStripChars parenSemiChars ptail)
      match plist with
      | [] => .ok { ret_type := rn.1, name := rn.2, parameters := [] }
      | v :: _ =>
        if v = voidTok then .ok { ret_type := rn.1, name := rn.2, parameters := [] }
        else
          match mapExcept parseDefParam plist with
          | .error e => .error e
          | .ok ps => .ok { ret_type := rn.1, name := rn.2, parameters := ps }

def joinCommaSp : List Str → Str
  | [] => []
  | [t] => t
  | t :: ts => t ++ ',' :: ' ' :: joinCommaSp ts

/-- Models Definition.T_repr: return_type name(parameters) with the
parameters joined by comma-space.  Note there is no trailing semicolon. -/
def reprDefn (d : Defn) : Str :=
  d.ret_type ++ ' ' :: (d.name ++ '(' :: (joinCommaSp (d.parameters.map paramStr) ++ [')']))

/-- Result of the synopsis scan: either the Unimplemented short-circuit or
the accumulated list of parsed declarations. -/
inductive ScanRes where
  | unimpl
  | defsRes (l : List Defn)
deriving DecidableEq, Repr

/-- Comment stripping: text between the first open and the last close
comment marker is removed, then the line is stripped, exactly when both
markers occur in the line. -/
def stripComment (line : Str) : Str :=
  if hasSub commentOpen line && hasSub commentClose line then
    match idxOfSub commentOpen line, lastIdxOfSub commentClose line with
    | some i, some j => pyStrip (line.take i ++ line.drop (j + 2))
    | _, _ => line
  else line

/-- One iteration of the multi-line join: stop when the line already ends
with a semicolon, otherwise append the next lookahead line (backspace-
normalized and stripped) and re-strip comments.  Reading past the end of
the document models the Python IndexError. -/
def joinStep (rest : List Str) (times : Nat) (line : Str) : Except PErr (Str ⊕ Str) :=
  if suffixB [';'] line then .ok (.inl line)
  else
    match rest[times]? with
    | none => .error .joinIndex
    | some nl => .ok (.inr (stripComment (line ++ ' ' :: pyStrip (subCB nl))))

/-- The join loop runs at most three times (the source breaks at times == 3). -/
def joinAll (rest : List Str) (line : Str) : Except PErr Str :=
  match joinStep rest 0 line with
  | .error e => .error e
  | .ok (.inl d) => .ok d
  | .ok (.inr l1) =>
    match joinStep rest 1 l1 with
    | .error e => .error e
    | .ok (.inl d) => .ok d
    | .ok (.inr l2) =>
      match joinStep rest 2 l2 with
      | .error e => .error e
      | .ok (.inl d) => .ok d
      | .ok (.inr l3) => .ok l3

/-- The scan loop between the SYNOPSIS and DESCRIPTION markers of
SyscallManual.T_parse_definition.  Lines are stripped and backspace-
normalized; the loop returns early on the Unimplemented marker, skips
typedef lines and lines failing the shape filter, joins multi-line
candidates, and parses each surviving candidate (a parse failure
propagates: the source has no try/except around Definition). -/
def scanLines : List Str → List Defn → Except PErr ScanRes
  | [], _ => .error .descriptionMissing
  | l0 :: rest, acc =>
    let q := subCB (pyStrip l0)
    if q = descriptionTok then .ok (.defsRes acc)
    else if hasSub unimplTok q then .ok .unimpl
    else if prefixB typedefTok q then scanLines rest acc
    else
      let c := stripComment q
      if ¬(1 < tokCount c ∧ hasSub ['('] c) then scanLines rest acc
      else
        match joinAll rest c with
        | .error e => .error e
        | .ok joined =>
          if ¬(1 < tokCount joined ∧ hasSub ['('] joined ∧ suffixB closeParenSemi joined) then
            scanLines rest acc
          else
            match parseDefLine joined with
            | .error e => .error e
            | .ok d => scanLines rest (acc ++ [d])

/-- The first loop of SyscallManual.T_parse_definition: discard lines until
one backspace-normalizes to exactly SYNOPSIS (these lines are not
stripped); exhaustion models the MalformedDocument exception. -/
def findSynopsis : List Str → Except PErr (List Str)
  | [] => .error .synopsisMissing
  | l :: rest => if subCB l = synopsisTok then .ok rest else findSynopsis rest

/-- Outcome of one lookup (the NO_MAN_ENTRY case belongs to the external
retrieval collaborator and never arises from document text). -/
inductive Outcome where
  | notFound
  | unimplemented
  | found (d : Defn)
deriving DecidableEq, Repr

/-- The name normalization and prefix filter: drop a leading underscore
when the rest of the name is still a prefix of the queried name, then keep
only declarations whose name is a prefix of the queried name. -/
def normFilter (qname : Str) (defs : List Defn) : List Defn :=
  defs.filterMap (fun d =>
    let d2 :=
      if prefixB ['_'] d.name && prefixB (d.name.drop 1) qname then
        { d with name := d.name.drop 1 }
      else d
    if prefixB d2.name qname then some d2 else none)

/-- The strictly-greater fold of the most-parameters selection: ties keep
the earlier declaration. -/
def pickMost : Defn → List Defn → Defn
  | best, [] => best
  | best, d :: ds =>
    pickMost (if best.parameters.length < d.parameters.length then d else best) ds

/-- Models name.rstrip("0123456789"). -/
def digitStrip (n : Str) : Str := dropLastWhile Char.isDigit n

def exactFilter (qname : Str) (ds : List Defn) : List Defn :=
  ds.filter (fun d => decide (d.name = qname))

def simFilter (qname : Str) (ds : List Defn) : List Defn :=
  ds.filter (fun d => decide (digitStrip d.name = digitStrip qname))

/-- The several-survivors arm of the disambiguation policy: prefer
exact-name declarations (most parameters, ties by first occurrence), then
digit-suffix-stripped matches (asserting at most one). -/
def selectMulti (qname : Str) (ds : List Defn) : Except PErr Outcome :=
  match exactFilter qname ds with
  | s0 :: ss => .ok (.found (pickMost s0 ss))
  | [] =>
    if 1 < (simFilter qname ds).length then .error .assertSimilar
    else
      match simFilter qname ds with
      | [] => .ok .notFound
      | d :: _ => .ok (.found d)

/-- The disambiguation policy over the prefix-filtered declarations:
nothing left yields NOT_FOUND; one survivor is returned; several survivors
go to selectMulti. -/
def selectDef (qname : Str) (defs : List Defn) : Except PErr Outcome :=
  match normFilter qname defs with
  | [] => .ok .notFound
  | [d] => .ok (.found d)
  | d0 :: d1 :: ds => selectMulti qname (d0 :: d1 :: ds)

/-- The whole lookup of SyscallManual.T_parse_definition on one document
(given as its list of lines, retrieval having succeeded). -/
def parseManual (qname : Str) (docLines : List Str) : Except PErr Outcome :=
  match findSynopsis docLines with
  | .error e => .error e
  | .ok rest =>
    match scanLines rest [] with
    | .error e => .error e
    | .ok .unimpl => .ok .unimplemented
    | .ok (.defsRes l) => selectDef qname l

deriving instance DecidableEq for Except

/-- No two consecutive backspace characters occur in the line.  Under this
condition the overstrike normalizer is idempotent (see the amended C9). -/
def noTwoBS : Str → Bool
  | a :: b :: rest => !(a == bsChar && b == bsChar) && noTwoBS (b :: rest)
  | _ => true

/-- The line is a fixed point of the overstrike normalizer: no non-newline
character is immediately followed by a backspace. -/
def cbFixed : Str → Bool
  | a :: b :: rest => !(a != '\n' && b == bsChar) && cbFixed (b :: rest)
  | _ => true

/-- A nonempty identifier-like token (letters, digits, underscores). -/
def plainTok (t : Str) : Prop := t ≠ [] ∧ ∀ c ∈ t, plainChar c = true

instance (t : Str) : Decidable (plainTok t) := by unfold plainTok; infer_instance

def kwList : List Str := [kwUnsigned, kwConst, kwStruct, kwUnion, kwEnum]

/-- The flag update performed by one iteration of the peel loop on a
recognised qualifier keyword. -/
def updKw (w : Str) (r : Param) : Param :=
  if w = kwUnsigned then { r with unsigned := true }
  else if w = kwConst then { r with const := true }
  else if w = kwStruct then { r with struct := true }
  else if w = kwUnion then { r with union := true }
  else { r with enum := true }

def updKws (ws : List Str) (r : Param) : Param := ws.foldl (fun r w => updKw w r) r

/-- Word list concatenated with one trailing space per word. -/
def qcat : List Str → Str
  | [] => []
  | w :: ws => w ++ ' ' :: qcat ws

/-- The qualifier keywords of a descriptor in serialization order. -/
def qualWords (p : Param) : List Str :=
  (if p.const then [kwConst] else []) ++ (if p.struct then [kwStruct] else []) ++
  (if p.union then [kwUnion] else []) ++ (if p.enum then [kwEnum] else []) ++
  (if p.unsigned then [kwUnsigned] else [])

/-- Canonical regular fragments: a descriptor whose serialization uses a
single identifier-like base type (not itself a qualifier keyword) and an
identifier-like name; all qualifier flags are arbitrary. -/
def FragReg (p : Param) : Prop :=
  p.ellipsis = false ∧ p.function = false ∧ plainTok p.ptype ∧ p.ptype ∉ kwList ∧
  plainTok p.pname

instance (p : Param) : Decidable (FragReg p) := by unfold FragReg; infer_instance

def ellipsisParam : Param := { ellipsis := true }

/-- Canonical function-pointer fragments: the name is an opaque token of
the shape open-paren star ... close-paren, as produced by the tokenizer. -/
def FragFn (p : Param) : Prop :=
  p.ellipsis = false ∧ p.function = true ∧ p.pointer = false ∧ p.array = false ∧
  plainTok p.ptype ∧ p.ptype ∉ kwList ∧
  ∃ mid, p.pname = '(' :: '*' :: (mid ++ [')'])

/-- Canonical parameter fragments for the amended round-trip law. -/
def FragOK (p : Param) : Prop := FragReg p ∨ p = ellipsisParam ∨ FragFn p

/-- Canonical declaration lines for the amended declaration round-trip law:
a space-separated nonempty return type of identifier-like words, an
identifier-like declaration name, and a nonempty canonical parameter list
(regular fragments or the variadic marker). -/
def LineOK (retWords : List Str) (fname : Str) (ps : List Param) : Prop :=
  retWords ≠ [] ∧ (∀ w ∈ retWords, plainTok w) ∧ plainTok fname ∧ ps ≠ [] ∧
  ∀ p ∈ ps, FragReg p ∨ p = ellipsisParam

/-- The candidate declaration line serializing the given components. -/
def lineOf (retWords : List Str) (fname : Str) (ps : List Param) : Str :=
  joinSp retWords ++ ' ' :: (fname ++ '(' :: (joinCommaSp (ps.map paramStr) ++ closeParenSemi))

/-- A synopsis line that the scan discards without any effect: it is not
the end marker, does not contain the Unimplemented marker, and is either a
typedef line or fails the two-tokens-and-open-paren shape filter. -/
def skipLine (l : Str) : Prop :=
  subCB (pyStrip l) ≠ descriptionTok ∧
  hasSub unimplTok (subCB (pyStrip l)) = false ∧
  (prefixB typedefTok (subCB (pyStrip l)) = true ∨
    ¬(1 < tokCount (stripComment (subCB (pyStrip l))) ∧
      hasSub ['('] (stripComment (subCB (pyStrip l))) = true))

instance (l : Str) : Decidable (skipLine l) := by unfold skipLine; infer_instance

instance (retWords : List Str) (fname : Str) (ps : List Param) :
    Decidable (LineOK retWords fname ps) := by
  unfold LineOK; infer_instance

/-- No star-space pair occurs in the string, so the pointer-reattachment
replacement is the identity on it. -/
def noStarSpace : Str → Bool
  | a :: b :: rest => !(a == '*' && b == ' ') && noStarSpace (b :: rest)
  | _ => true

/-- A plain int-typed parameter descriptor, used by concrete examples. -/
def intParam (n : Str) : Param := { ptype := "int".data, pname := n }

def openDefn2 : Defn :=
  { ret_type := "int".data, name := "open".data,
    parameters := [intParam ("path".data), intParam ("flags".data)] }

def openDefn3 : Defn :=
  { ret_type := "int".data, name := "open".data,
    parameters := [intParam ("path".data), intParam ("flags".data), intParam ("mode".data)] }

def eventfdDefn : Defn :=
  { ret_type := "int".data, name := "eventfd".data,
    parameters := [intParam ("initval".data), intParam ("flags".data)] }

def eventDefn : Defn :=
  { ret_type := "int".data, name := "event".data, parameters := [intParam ("x".data)] }

/-! ### Character and token lemmas -/

theorem plainChar_ne (c d : Char) (h : plainChar c = true) (hd : plainChar d = false) :
    c ≠ d := by
  intro he; subst he; rw [h] at hd; cases hd

theorem plainChar_not_space (c : Char) (h : plainChar c = true) : pyIsSpace c = false := by
  cases hs : pyIsSpace c with
  | false => rfl
  | true =>
    exfalso
    simp only [pyIsSpace, Bool.or_eq_true, beq_iff_eq] at hs
    rcases hs with ((((rfl | rfl) | rfl) | rfl) | rfl) | rfl <;> exact absurd h (by decide)

/-! ### Generic takeWhile and dropWhile lemmas -/

theorem takeWhile_append_all (p : Char → Bool) (xs ys : Str) (h : ∀ a ∈ xs, p a = true) :
    (xs ++ ys).takeWhile p = xs ++ ys.takeWhile p := by
  induction xs with
  | nil => rfl
  | cons x xs ih =>
    simp only [List.cons_append, List.takeWhile_cons, h x (List.mem_cons_self x xs), if_true]
    rw [ih (fun a ha => h a (List.mem_cons_of_mem x ha))]

theorem dropWhile_append_all (p : Char → Bool) (xs ys : Str) (h : ∀ a ∈ xs, p a = true) :
    (xs ++ ys).dropWhile p = ys.dropWhile p := by
  induction xs with
  | nil => rfl
  | cons x xs ih =>
    simp only [List.cons_append, List.dropWhile_cons, h x (List.mem_cons_self x xs), if_true]
    exact ih (fun a ha => h a (List.mem_cons_of_mem x ha))

theorem takeWhile_all (p : Char → Bool) (l : Str) (h : ∀ a ∈ l, p a = true) :
    l.takeWhile p = l := List.takeWhile_eq_self_iff.mpr h

theorem dropWhile_all (p : Char → Bool) (l : Str) (h : ∀ a ∈ l, p a = true) :
    l.dropWhile p = [] := by
  induction l with
  | nil => rfl
  | cons x xs ih =>
    simp only [List.dropWhile_cons, h x (List.mem_cons_self x xs), if_true]
    exact ih (fun a ha => h a (List.mem_cons_of_mem x ha))

theorem dropWhile_cons_false (p : Char → Bool) (c : Char) (t : Str) (hc : p c = false) :
    (c :: t).dropWhile p = c :: t := by simp [List.dropWhile_cons, hc]

theorem takeWhile_cons_false (p : Char → Bool) (c : Char) (t : Str) (hc : p c = false) :
    (c :: t).takeWhile p = [] := by simp [List.takeWhile_cons, hc]

theorem len_dropWhile_le (p : Char → Bool) (l : Str) : (l.dropWhile p).length ≤ l.length := by
  induction l with
  | nil => simp
  | cons x xs ih =>
    by_cases hx : p x
    · simp only [List.dropWhile_cons, hx, if_true]
      exact ih.trans (by simp)
    · simp [List.dropWhile_cons, hx]

theorem dropLastWhile_concat_false (p : Char → Bool) (u : Str) (d : Char) (hd : p d = false) :
    dropLastWhile p (u ++ [d]) = u ++ [d] := by
  unfold dropLastWhile
  rw [List.reverse_append]
  simp [List.dropWhile_cons, hd]

theorem strip2_id (p : Char → Bool) (s : Str)
    (h1 : ∃ c t, s = c :: t ∧ p c = false)
    (h2 : ∃ u d, s = u ++ [d] ∧ p d = false) :
    dropLastWhile p (s.dropWhile p) = s := by
  obtain ⟨c, t, rfl, hc⟩ := h1
  obtain ⟨u, d, he, hd⟩ := h2
  rw [dropWhile_cons_false p c t hc, he, dropLastWhile_concat_false p u d hd]

theorem pyStrip_id (s : Str)
    (h1 : ∃ c t, s = c :: t ∧ pyIsSpace c = false)
    (h2 : ∃ u d, s = u ++ [d] ∧ pyIsSpace d = false) : pyStrip s = s :=
  strip2_id pyIsSpace s h1 h2

/-! ### Lemmas about the Python split models -/

theorem pySplit1WS_app (w rest : Str) (hw : w ≠ []) (hwp : ∀ c ∈ w, pyIsSpace c = false)
    (c0 : Char) (t0 : Str) (hr : rest = c0 :: t0) (hc0 : pyIsSpace c0 = false) :
    pySplit1WS (w ++ ' ' :: rest) = some (w, rest) := by
  obtain ⟨a, w2, rfl⟩ : ∃ a w2, w = a :: w2 := by
    cases w with
    | nil => exact absurd rfl hw
    | cons a w2 => exact ⟨a, w2, rfl⟩
  have ha : pyIsSpace a = false := hwp a (List.mem_cons_self a w2)
  have hnot : ∀ c ∈ a :: w2, (!pyIsSpace c) = true := by
    intro c hc; simp [hwp c hc]
  unfold pySplit1WS
  rw [show (a :: w2) ++ ' ' :: rest = a :: (w2 ++ ' ' :: rest) from rfl,
    dropWhile_cons_false pyIsSpace a _ ha,
    show a :: (w2 ++ ' ' :: rest) = (a :: w2) ++ ' ' :: rest from rfl]
  rw [takeWhile_append_all _ _ _ hnot, takeWhile_cons_false _ ' ' _ (by decide)]
  rw [dropWhile_append_all _ _ _ hnot, dropWhile_cons_false _ ' ' _ (by decide)]
  simp only [List.dropWhile_cons, show pyIsSpace ' ' = true by decide, if_true]
  rw [hr, dropWhile_cons_false _ c0 _ hc0]
  simp

theorem pySplit1WS_single (t : Str) (h : ∀ c ∈ t, pyIsSpace c = false) :
    pySplit1WS t = none := by
  unfold pySplit1WS
  have h1 : t.dropWhile pyIsSpace = t := by
    cases t with
    | nil => rfl
    | cons c t2 => exact dropWhile_cons_false _ _ _ (h c (List.mem_cons_self c t2))
  have h2 : t.takeWhile (fun c => !pyIsSpace c) = t :=
    takeWhile_all _ _ (fun c hc => by simp [h c hc])
  have h3 : t.dropWhile (fun c => !pyIsSpace c) = [] :=
    dropWhile_all _ _ (fun c hc => by simp [h c hc])
  rw [h1, h2, h3]
  simp

theorem pyRsplit1_app (A B : Str)
    (hA : ∃ u d, A = u ++ [d] ∧ pyIsSpace d = false)
    (hB : B ≠ []) (hBp : ∀ c ∈ B, pyIsSpace c = false) :
    pyRsplit1 (A ++ ' ' :: B) = some (A, B) := by
  obtain ⟨u, d, rfl, hd⟩ := hA
  obtain ⟨b0, B2, rfl⟩ : ∃ b0 B2, B = b0 :: B2 := by
    cases B with
    | nil => exact absurd rfl hB
    | cons b0 B2 => exact ⟨b0, B2, rfl⟩
  have hrev : ((u ++ [d]) ++ ' ' :: b0 :: B2).reverse =
      (b0 :: B2).reverse ++ ' ' :: d :: u.reverse := by
    simp [List.reverse_append, List.append_assoc]
  have hBnot : ∀ c ∈ (b0 :: B2).reverse, (!pyIsSpace c) = true := by
    intro c hc; simp [hBp c (List.mem_reverse.mp hc)]
  have hBhead : ∃ c t, (b0 :: B2).reverse = c :: t ∧ pyIsSpace c = false := by
    obtain ⟨L, b, hLb⟩ : ∃ L b, b0 :: B2 = L ++ [b] := by
      rcases List.eq_nil_or_concat (b0 :: B2) with h | ⟨L, b, h⟩
      · cases h
      · exact ⟨L, b, by simpa [List.concat_eq_append] using h⟩
    refine ⟨b, L.reverse, by rw [hLb]; simp, ?_⟩
    exact hBp b (by rw [hLb]; simp)
  obtain ⟨c, t, hct, hc⟩ := hBhead
  have hBnot2 : ∀ x ∈ c :: t, (!pyIsSpace x) = true := by rw [← hct]; exact hBnot
  unfold pyRsplit1
  rw [hrev, hct]
  rw [show (c :: t) ++ ' ' :: d :: u.reverse = c :: (t ++ ' ' :: d :: u.reverse) from rfl,
    dropWhile_cons_false pyIsSpace c _ hc,
    show c :: (t ++ ' ' :: d :: u.reverse) = (c :: t) ++ ' ' :: d :: u.reverse from rfl]
  rw [takeWhile_append_all _ _ _ hBnot2, takeWhile_cons_false _ ' ' _ (by decide)]
  rw [dropWhile_append_all _ _ _ hBnot2, dropWhile_cons_false _ ' ' _ (by decide)]
  simp only [List.dropWhile_cons, show pyIsSpace ' ' = true by decide, if_true]
  simp [hd, List.reverse_reverse, ← hct]

theorem pySplit1WS_lt (s item rest : Str) (h : pySplit1WS s = some (item, rest)) :
    item.length < s.length ∧ rest.length < s.length := by
  unfold pySplit1WS at h
  by_cases he : ((s.dropWhile pyIsSpace).takeWhile (fun c => !pyIsSpace c)).isEmpty
      || (((s.dropWhile pyIsSpace).dropWhile (fun c => !pyIsSpace c)).dropWhile pyIsSpace).isEmpty
  · rw [if_pos he] at h; cases h
  · rw [if_neg he] at h
    simp only [Bool.or_eq_true, List.isEmpty_iff, not_or] at he
    obtain ⟨hne1, hne2⟩ := he
    obtain ⟨rfl, rfl⟩ : (s.dropWhile pyIsSpace).takeWhile (fun c => !pyIsSpace c) = item ∧
        ((s.dropWhile pyIsSpace).dropWhile (fun c => !pyIsSpace c)).dropWhile pyIsSpace = rest := by
      have := h; injection this with h2; exact ⟨congrArg Prod.fst h2, congrArg Prod.snd h2⟩
    have hsplit : ((s.dropWhile pyIsSpace).takeWhile (fun c => !pyIsSpace c)).length +
        ((s.dropWhile pyIsSpace).dropWhile (fun c => !pyIsSpace c)).length =
        (s.dropWhile pyIsSpace).length := by
      rw [← List.length_append, List.takeWhile_append_dropWhile]
    have l1 : (s.dropWhile pyIsSpace).length ≤ s.length := len_dropWhile_le _ _
    have l2 : (((s.dropWhile pyIsSpace).dropWhile (fun c => !pyIsSpace c)).dropWhile
        pyIsSpace).length ≤ ((s.dropWhile pyIsSpace).dropWhile (fun c => !pyIsSpace c)).length :=
      len_dropWhile_le _ _
    have p1 : 0 < ((s.dropWhile pyIsSpace).takeWhile (fun c => !pyIsSpace c)).length :=
      List.length_pos.mpr hne1
    have p2 : 0 < (((s.dropWhile pyIsSpace).dropWhile (fun c => !pyIsSpace c)).dropWhile
        pyIsSpace).length := List.length_pos.mpr hne2
    omega

theorem peelF_irrel (n : Nat) : ∀ (m : Nat) (r : Param), r.ptype.length < n →
    r.ptype.length < m → peelF n r = peelF m r := by
  induction n using Nat.strong_induction_on with
  | _ n ih =>
    intro m r hn hm
    cases n with
    | zero => omega
    | succ n2 =>
      cases m with
      | zero => omega
      | succ m2 =>
        cases hsp : pySplit1WS r.ptype with
        | none => simp only [peelF, hsp]
        | some pr =>
          obtain ⟨item, rest⟩ := pr
          obtain ⟨hil, hrl⟩ := pySplit1WS_lt _ _ _ hsp
          simp only [peelF, hsp]
          split_ifs <;>
            first
            | rfl
            | exact ih n2 (Nat.lt_succ_self n2) m2 _ (show rest.length < n2 by omega)
                (show rest.length < m2 by omega)
            | exact ih n2 (Nat.lt_succ_self n2) m2 _ (show item.length < n2 by omega)
                (show item.length < m2 by omega)

theorem peelF_eq_peelType (n : Nat) (r : Param) (h : r.ptype.length < n) :
    peelF n r = peelType r :=
  peelF_irrel n (r.ptype.length + 1) r h (Nat.lt_succ_self _)

/-! ### Selection lemmas -/

theorem pickMost_mem (l : List Defn) : ∀ b : Defn, pickMost b l ∈ b :: l := by
  induction l with
  | nil => intro b; simp [pickMost]
  | cons d ds ih =>
    intro b
    simp only [pickMost]
    have hm := ih (if b.parameters.length < d.parameters.length then d else b)
    rcases List.mem_cons.mp hm with h | h
    · rw [h]
      by_cases hc : b.parameters.length < d.parameters.length
      · simp [hc]
      · simp [hc]
    · exact List.mem_cons_of_mem _ (List.mem_cons_of_mem _ h)

theorem pickMost_spec (l : List Defn) : ∀ b : Defn,
    ∃ pre post, b :: l = pre ++ pickMost b l :: post ∧
      (∀ e ∈ b :: l, e.parameters.length ≤ (pickMost b l).parameters.length) ∧
      (∀ e ∈ pre, e.parameters.length < (pickMost b l).parameters.length) := by
  induction l with
  | nil => exact fun b => ⟨[], [], rfl, by simp [pickMost], by simp⟩
  | cons d ds ih =>
    intro b
    by_cases hc : b.parameters.length < d.parameters.length
    · obtain ⟨pre, post, hsplit, hmax, hlt⟩ := ih d
      have hpm : pickMost b (d :: ds) = pickMost d ds := by simp [pickMost, hc]
      refine ⟨b :: pre, post, ?_, ?_, ?_⟩
      · rw [hpm, List.cons_append, ← hsplit]
      · intro e he
        rw [hpm]
        rcases List.mem_cons.mp he with rfl | he2
        · exact (hc.trans_le (hmax d (List.mem_cons_self d ds))).le
        · exact hmax e he2
      · intro e he
        rw [hpm]
        rcases List.mem_cons.mp he with rfl | he2
        · exact hc.trans_le (hmax d (List.mem_cons_self d ds))
        · exact hlt e he2
    · obtain ⟨pre, post, hsplit, hmax, hlt⟩ := ih b
      have hpm : pickMost b (d :: ds) = pickMost b ds := by simp [pickMost, hc]
      have hdb : d.parameters.length ≤ b.parameters.length := Nat.le_of_not_lt hc
      cases pre with
      | nil =>
        simp only [List.nil_append] at hsplit
        have hb : pickMost b ds = b := by
          have := congrArg (fun l => l.head?) hsplit
          simpa using this.symm
        have hpost : post = ds := by
          have := congrArg (fun l => l.tail) hsplit
          simpa using this.symm
        refine ⟨[], d :: ds, ?_, ?_, by simp⟩
        · rw [hpm, hb, List.nil_append]
        · intro e he
          rw [hpm, hb]
          rcases List.mem_cons.mp he with rfl | he2
          · exact Nat.le_refl _
          · rcases List.mem_cons.mp he2 with rfl | he3
            · exact hdb
            · have := hmax e (List.mem_cons_of_mem b he3)
              rw [hb] at this
              exact this
      | cons p0 pre2 =>
        simp only [List.cons_append] at hsplit
        have hp0 : p0 = b := by
          have := congrArg (fun l => l.head?) hsplit
          simpa using this.symm
        have hds : ds = pre2 ++ pickMost b ds :: post := by
          have := congrArg (fun l => l.tail) hsplit
          simpa using this
        have hbmem : b ∈ p0 :: pre2 := by rw [hp0]; exact List.mem_cons_self b pre2
        have hblt : b.parameters.length < (pickMost b ds).parameters.length := hlt b hbmem
        refine ⟨b :: d :: pre2, post, ?_, ?_, ?_⟩
        · rw [hpm]
          simp only [List.cons_append]
          rw [← hds]
        · intro e he
          rw [hpm]
          rcases List.mem_cons.mp he with rfl | he2
          · exact hblt.le
          · rcases List.mem_cons.mp he2 with rfl | he3
            · exact hdb.trans hblt.le
            · exact hmax e (List.mem_cons_of_mem b he3)
        · intro e he
          rw [hpm]
          rcases List.mem_cons.mp he with rfl | he2
          · exact hblt
          · rcases List.mem_cons.mp he2 with rfl | he3
            · exact Nat.lt_of_le_of_lt hdb hblt
            · exact hlt e (List.mem_cons_of_mem p0 he3)

theorem normFilter_prefix (qname : Str) (defs : List Defn) (d : Defn)
    (h : d ∈ normFilter qname defs) : prefixB d.name qname = true := by
  obtain ⟨a, _, hfa⟩ := List.mem_filterMap.mp h
  by_cases hp : prefixB (if prefixB ['_'] a.name && prefixB (a.name.drop 1) qname then
      { a with name := a.name.drop 1 } else a).name qname = true
  · simp only [normFilter, if_pos hp] at hfa
    injection hfa with hfa
    rw [← hfa]
    exact hp
  · simp only [normFilter, if_neg hp] at hfa
    cases hfa

theorem selectMulti_found_mem (qname : Str) (ds : List Defn) (d : Defn)
    (h : selectMulti qname ds = .ok (.found d)) : d ∈ ds := by
  unfold selectMulti at h
  cases hfe : exactFilter qname ds with
  | cons s0 ss =>
    rw [hfe] at h
    simp at h
    rw [← h]
    have hm : pickMost s0 ss ∈ s0 :: ss := pickMost_mem ss s0
    rw [← hfe] at hm
    exact List.mem_of_mem_filter hm
  | nil =>
    rw [hfe] at h
    by_cases hlen : 1 < (simFilter qname ds).length
    · rw [if_pos hlen] at h; simp at h
    · rw [if_neg hlen] at h
      cases hsim : simFilter qname ds with
      | nil => rw [hsim] at h; simp at h
      | cons e es =>
        rw [hsim] at h
        simp at h
        have hm : e ∈ simFilter qname ds := by
          rw [hsim]; exact List.mem_cons_self _ _
        rw [← h]
        exact List.mem_of_mem_filter hm

theorem selectDef_found_mem (qname : Str) (defs : List Defn) (d : Defn)
    (h : selectDef qname defs = .ok (.found d)) : d ∈ normFilter qname defs := by
  unfold selectDef at h
  cases hnf : normFilter qname defs with
  | nil => rw [hnf] at h; simp at h
  | cons d0 tl =>
    rw [hnf] at h
    cases tl with
    | nil =>
      simp at h
      rw [← h]
      exact List.mem_cons_self _ _
    | cons d1 ds => exact selectMulti_found_mem qname (d0 :: d1 :: ds) d h

theorem selectDef_eq_multi (qname : Str) (defs : List Defn) (d0 d1 : Defn) (ds : List Defn)
    (hnf : normFilter qname defs = d0 :: d1 :: ds) :
    selectDef qname defs = selectMulti qname (d0 :: d1 :: ds) := by
  unfold selectDef; rw [hnf]

/-! ### Claims C4, C5, C6 -/

/-- C4: exact-match precedence.  Whenever more than one prefix-matching
declaration remains after the filter and at least one of them has a name
exactly equal to the queried name, the engine returns Found with, among the
exact-name declarations, one carrying the greatest parameter count; the
pre/post decomposition of the exact-name sublist (which preserves document
order) shows ties are broken by first occurrence: every declaration before
the returned one has strictly fewer parameters. -/
theorem exact_match_precedence (qname : Str) (defs : List Defn)
    (h2 : 2 ≤ (normFilter qname defs).length)
    (hex : ∃ d ∈ normFilter qname defs, d.name = qname) :
    ∃ d pre post,
      selectDef qname defs = .ok (.found d) ∧
      d.name = qname ∧
      exactFilter qname (normFilter qname defs) = pre ++ d :: post ∧
      (∀ e ∈ exactFilter qname (normFilter qname defs),
        e.parameters.length ≤ d.parameters.length) ∧
      (∀ e ∈ pre, e.parameters.length < d.parameters.length) := by
  cases hnf : normFilter qname defs with
  | nil => rw [hnf] at h2; simp at h2
  | cons d0 tl =>
    cases tl with
    | nil => rw [hnf] at h2; simp at h2
    | cons d1 ds =>
      have hbr := selectDef_eq_multi qname defs d0 d1 ds hnf
      rw [hnf] at hex
      obtain ⟨dx, hdx, hdname⟩ := hex
      have hexne : exactFilter qname (d0 :: d1 :: ds) ≠ [] := by
        intro he
        have hm : dx ∈ exactFilter qname (d0 :: d1 :: ds) := by
          unfold exactFilter
          exact List.mem_filter.mpr ⟨hdx, by simp [hdname]⟩
        rw [he] at hm
        cases hm
      cases hfe : exactFilter qname (d0 :: d1 :: ds) with
      | nil => exact absurd hfe hexne
      | cons s0 ss =>
        have hsel : selectDef qname defs = .ok (.found (pickMost s0 ss)) := by
          rw [hbr]; unfold selectMulti; simp only [hfe]
        obtain ⟨pre, post, hsplit, hmax, hlt⟩ := pickMost_spec ss s0
        have hmem : pickMost s0 ss ∈ exactFilter qname (d0 :: d1 :: ds) := by
          rw [hfe]; exact pickMost_mem ss s0
        have hname : (pickMost s0 ss).name = qname :=
          of_decide_eq_true (List.mem_filter.mp hmem).2
        exact ⟨pickMost s0 ss, pre, post, hsel, hname, hsplit, hmax, hlt⟩

/-- C5: digit-suffix fallback.  When several prefix-matching declarations
remain and none matches the queried name exactly, the engine keeps the
declarations whose digit-stripped name equals the digit-stripped queried
name: more than one survivor trips the assertion (an invariant violation),
no survivor yields NotFound, and a unique survivor is returned as Found. -/
theorem digit_suffix_fallback (qname : Str) (defs : List Defn)
    (h2 : 2 ≤ (normFilter qname defs).length)
    (hnone : ∀ d ∈ normFilter qname defs, d.name ≠ qname) :
    (1 < (simFilter qname (normFilter qname defs)).length →
      selectDef qname defs = .error .assertSimilar) ∧
    (simFilter qname (normFilter qname defs) = [] →
      selectDef qname defs = .ok .notFound) ∧
    (∀ d, simFilter qname (normFilter qname defs) = [d] →
      selectDef qname defs = .ok (.found d)) := by
  cases hnf : normFilter qname defs with
  | nil => rw [hnf] at h2; simp at h2
  | cons d0 tl =>
    cases tl with
    | nil => rw [hnf] at h2; simp at h2
    | cons d1 ds =>
      have hbr := selectDef_eq_multi qname defs d0 d1 ds hnf
      rw [hnf] at hnone
      have hfe : exactFilter qname (d0 :: d1 :: ds) = [] := by
        unfold exactFilter
        simp only [List.filter_eq_nil_iff]
        intro a ha
        simp [hnone a ha]
      refine ⟨?_, ?_, ?_⟩
      · intro hgt
        rw [hbr]; unfold selectMulti; simp only [hfe]
        rw [if_pos hgt]
      · intro hsim
        rw [hbr]; unfold selectMulti; simp only [hfe]
        rw [if_neg (by rw [hsim]; simp)]
        simp only [hsim]
      · intro d hsim
        rw [hbr]; unfold selectMulti; simp only [hfe]
        rw [if_neg (by rw [hsim]; simp)]
        simp only [hsim]

/-- C6: prefix invariant.  Whenever the whole lookup returns Found, the
(underscore-normalized) name of the returned declaration is a prefix of the
queried name, through every branch of the disambiguation policy. -/
theorem found_prefix_invariant (qname : Str) (docLines : List Str) (d : Defn)
    (h : parseManual qname docLines = .ok (.found d)) :
    prefixB d.name qname = true := by
  unfold parseManual at h
  cases hfs : findSynopsis docLines with
  | error e => simp [hfs] at h
  | ok rest =>
    simp only [hfs] at h
    cases hsc : scanLines rest [] with
    | error e => simp [hsc] at h
    | ok sr =>
      cases sr with
      | unimpl => simp [hsc] at h
      | defsRes l =>
        simp only [hsc] at h
        exact normFilter_prefix qname l d (selectDef_found_mem qname l d h)

/-! ### Witnesses for C4, C5, C6 -/

theorem exact_match_precedence_witness :
    (2 ≤ (normFilter ("open".data) [openDefn2, openDefn3]).length ∧
      ∃ d ∈ normFilter ("open".data) [openDefn2, openDefn3], d.name = "open".data) ∧
    (∃ d pre post,
      selectDef ("open".data) [openDefn2, openDefn3] = .ok (.found d) ∧
      d.name = "open".data ∧
      exactFilter ("open".data) (normFilter ("open".data) [openDefn2, openDefn3]) =
        pre ++ d :: post ∧
      (∀ e ∈ exactFilter ("open".data) (normFilter ("open".data) [openDefn2, openDefn3]),
        e.parameters.length ≤ d.parameters.length) ∧
      (∀ e ∈ pre, e.parameters.length < d.parameters.length)) ∧
    selectDef ("open".data) [openDefn2, openDefn3] = .ok (.found openDefn3) :=
  ⟨⟨by decide, ⟨openDefn3, by decide, by decide⟩⟩,
    exact_match_precedence _ _ (by decide) ⟨openDefn3, by decide, by decide⟩,
    by decide⟩

theorem digit_suffix_fallback_witness :
    (2 ≤ (normFilter ("eventfd2".data) [eventfdDefn, eventDefn]).length ∧
      ∀ d ∈ normFilter ("eventfd2".data) [eventfdDefn, eventDefn], d.name ≠ "eventfd2".data) ∧
    simFilter ("eventfd2".data) (normFilter ("eventfd2".data) [eventfdDefn, eventDefn]) =
      [eventfdDefn] ∧
    selectDef ("eventfd2".data) [eventfdDefn, eventDefn] = .ok (.found eventfdDefn) :=
  ⟨⟨by decide, by decide⟩, by decide,
    (digit_suffix_fallback _ _ (by decide) (by decide)).2.2 eventfdDefn (by decide)⟩

theorem found_prefix_invariant_witness :
    parseManual ("eventfd2".data)
      ["SYNOPSIS".data, "int eventfd(int initval, int flags);".data, "DESCRIPTION".data] =
      .ok (.found eventfdDefn) ∧
    prefixB eventfdDefn.name ("eventfd2".data) = true :=
  ⟨by decide,
    found_prefix_invariant ("eventfd2".data)
      ["SYNOPSIS".data, "int eventfd(int initval, int flags);".data, "DESCRIPTION".data]
      eventfdDefn (by decide)⟩

/-! ### C9: the overstrike normalizer -/

theorem cbFixed_subCB : ∀ s : Str, cbFixed s = true → subCB s = s
  | [] => fun _ => rfl
  | [c] => fun _ => rfl
  | a :: b :: rest => fun h => by
    have hparts : (!(a != '\n' && b == bsChar)) = true ∧ cbFixed (b :: rest) = true := by
      simpa [cbFixed, Bool.and_eq_true] using h
    have hcond : (a != '\n' && b == bsChar) = false := by
      have := hparts.1
      cases hx : (a != '\n' && b == bsChar) with
      | false => rfl
      | true => rw [hx] at this; cases this
    simp only [subCB, hcond, Bool.false_eq_true, if_false]
    rw [cbFixed_subCB (b :: rest) hparts.2]

theorem noTwoBS_tail : ∀ (c : Char) (s : Str), noTwoBS (c :: s) = true → noTwoBS s = true
  | _, [], _ => rfl
  | c, d :: t, h => by
    have : (!(c == bsChar && d == bsChar)) = true ∧ noTwoBS (d :: t) = true := by
      simpa [noTwoBS, Bool.and_eq_true] using h
    exact this.2

theorem subCB_head_bs : ∀ (s t : Str), noTwoBS s = true → subCB s = bsChar :: t →
    ∃ u, s = bsChar :: u
  | [], t, _, h => by simp [subCB] at h
  | [c], t, _, h => by
    simp only [subCB] at h
    exact ⟨[], by rw [(List.cons.injEq _ _ _ _).mp h |>.1]⟩
  | a :: b :: rest, t, hn, h => by
    by_cases hc : (a != '\n' && b == bsChar) = true
    · have he : subCB (a :: b :: rest) = subCB rest := by simp [subCB, hc]
      rw [he] at h
      have hb : b = bsChar := by
        have := (Bool.and_eq_true _ _).mp hc
        exact eq_of_beq this.2
      obtain ⟨u, hu⟩ :=
        subCB_head_bs rest t (noTwoBS_tail _ _ (noTwoBS_tail _ _ hn)) h
      exfalso
      subst hb
      subst hu
      have h2 := noTwoBS_tail a _ hn
      simp [noTwoBS] at h2
    · have he : subCB (a :: b :: rest) = a :: subCB (b :: rest) := by simp [subCB, hc]
      rw [he] at h
      have := (List.cons.injEq _ _ _ _).mp h
      exact ⟨b :: rest, by rw [this.1]⟩

theorem noTwoBS_cbFixed : ∀ s : Str, noTwoBS s = true → cbFixed (subCB s) = true
  | [], _ => rfl
  | [c], _ => rfl
  | a :: b :: rest, hn => by
    by_cases hc : (a != '\n' && b == bsChar) = true
    · have he : subCB (a :: b :: rest) = subCB rest := by simp [subCB, hc]
      rw [he]
      exact noTwoBS_cbFixed rest (noTwoBS_tail _ _ (noTwoBS_tail _ _ hn))
    · have he : subCB (a :: b :: rest) = a :: subCB (b :: rest) := by simp [subCB, hc]
      rw [he]
      have htl : cbFixed (subCB (b :: rest)) = true :=
        noTwoBS_cbFixed (b :: rest) (noTwoBS_tail _ _ hn)
      cases hX : subCB (b :: rest) with
      | nil => rfl
      | cons x xs =>
        rw [hX] at htl
        by_cases hx : x = bsChar
        · subst hx
          obtain ⟨u, hu⟩ := subCB_head_bs (b :: rest) xs (noTwoBS_tail _ _ hn) hX
          have hb : b = bsChar := ((List.cons.injEq _ _ _ _).mp hu).1
          have ha : a = '\n' := by
            subst hb
            by_contra hne
            exact hc (by simp [hne])
          subst ha
          simp [cbFixed, htl]
        · have hxf : (x == bsChar) = false := by
            cases hxe : x == bsChar with
            | false => rfl
            | true => exact absurd (eq_of_beq hxe) hx
          simp [cbFixed, htl, hxf]

/-- C9 counterexample: the overstrike normalizer is not idempotent on every
line.  On the line with characters a, b, backspace, backspace, one pass
removes the pair b-backspace leaving a followed by a backspace, and a
second pass removes that newly adjacent pair as well. -/
theorem overstrike_idempotence_counterexample :
    subCB (subCB ['a', 'b', bsChar, bsChar]) ≠ subCB ['a', 'b', bsChar, bsChar] ∧
    subCB ['a', 'b', bsChar, bsChar] = ['a', bsChar] ∧
    subCB ['a', bsChar] = [] :=
  ⟨by decide, by decide, by decide⟩

/-- C9 amended: the overstrike normalization is idempotent on every line
that contains no two consecutive backspace characters (removal of a
character-backspace pair can otherwise make a preceding character adjacent
to a surviving backspace, creating a new pair). -/
theorem overstrike_idempotent_of_noTwoBS (s : Str) (h : noTwoBS s = true) :
    subCB (subCB s) = subCB s :=
  cbFixed_subCB (subCB s) (noTwoBS_cbFixed s h)

theorem overstrike_idempotent_witness :
    noTwoBS ['l', bsChar, 'l', 's', bsChar, 's'] = true ∧
    subCB (subCB ['l', bsChar, 'l', 's', bsChar, 's']) =
      subCB ['l', bsChar, 'l', 's', bsChar, 's'] :=
  ⟨by decide, overstrike_idempotent_of_noTwoBS _ (by decide)⟩

/-! ### C10 and the remaining counterexamples -/

/-- C10: a candidate line with an empty parameter list such as int foo();
is handed to the parameter tokenizer with the empty fragment, whose
head/name split raises (modelled as the valueError); the declaration parser
produces neither a zero-parameter declaration nor a discard, and the whole
lookup on a document containing such a line aborts with that error. -/
theorem empty_parameter_list_aborts :
    parseParam [] = .error .valueError ∧
    parseDefLine ("int foo();".data) = .error .valueError ∧
    parseManual ("foo".data) ["SYNOPSIS".data, "int foo();".data, "DESCRIPTION".data] =
      .error .valueError :=
  ⟨by decide, by decide, by decide⟩

/-- C1 counterexample: the fragment with qualifiers written in the order
unsigned const is accepted by the tokenizer, but serialization emits the
fixed order const unsigned, so the round-trip law fails on this accepted
string. -/
theorem param_roundtrip_counterexample :
    parseParam ("unsigned const int x".data) =
      .ok { ptype := "int".data, pname := ['x'], const := true, unsigned := true } ∧
    paramStr { ptype := "int".data, pname := ['x'], const := true, unsigned := true } =
      "const unsigned int x".data ∧
    ("const unsigned int x".data : Str) ≠ "unsigned const int x".data :=
  ⟨by decide, by decide, by decide⟩

/-- C2 counterexample: a declaration line with a pointer return type is
accepted, but re-serialization moves the star onto the return type and
never emits the trailing semicolon, so the line is not reproduced exactly
as parsed (not even up to the terminator). -/
theorem decl_roundtrip_counterexample :
    parseDefLine ("void *foo(int a);".data) =
      .ok { ret_type := "void*".data, name := "foo".data, parameters := [intParam ['a']] } ∧
    reprDefn { ret_type := "void*".data, name := "foo".data, parameters := [intParam ['a']] } =
      "void* foo(int a)".data ∧
    ("void* foo(int a)".data : Str) ≠ "void *foo(int a);".data ∧
    ("void* foo(int a)".data ++ [';'] : Str) ≠ "void *foo(int a);".data :=
  ⟨by decide, by decide, by decide, by decide⟩

/-- C3 counterexample: a candidate line that passes the shape filter but
that the declaration parser rejects is not discarded: the exception
propagates and aborts the whole lookup, changing its outcome (without the
malformed candidate the same document yields Found). -/
theorem discard_counterexample :
    parseManual ("eventfd".data)
      ["SYNOPSIS".data, "int foo(a b c);".data,
        "int eventfd(int initval, int flags);".data, "DESCRIPTION".data] =
      .error .unexpectedPart ∧
    parseManual ("eventfd".data)
      ["SYNOPSIS".data, "int eventfd(int initval, int flags);".data, "DESCRIPTION".data] =
      .ok (.found eventfdDefn) :=
  ⟨by decide, by decide⟩

/-- C7 counterexample: a document whose synopsis region contains an
Unimplemented line does not always yield the Unimplemented outcome: a
malformed shaped candidate earlier in the region aborts the lookup first. -/
theorem unimplemented_shortcircuit_counterexample :
    parseManual ("foo".data)
      ["SYNOPSIS".data, "int foo(a b c);".data, "Unimplemented".data, "DESCRIPTION".data] =
      .error .unexpectedPart := by decide

/-- C8 counterexample: a document whose lines are exhausted before the
DESCRIPTION marker while a shaped candidate is being joined fails with the
lookahead index error, not with the MalformedDocument raise. -/
theorem malformed_document_counterexample :
    parseManual ("foo".data) ["SYNOPSIS".data, "int foo(int x".data] = .error .joinIndex ∧
    PErr.joinIndex ≠ PErr.descriptionMissing :=
  ⟨by decide, by decide⟩

/-! ### The scan-step lemmas for C3, C7, C8 -/

theorem scan_skip (l : Str) (rest : List Str) (acc : List Defn) (h : skipLine l) :
    scanLines (l :: rest) acc = scanLines rest acc := by
  obtain ⟨h1, h2, h3⟩ := h
  simp only [scanLines]
  rw [if_neg h1]
  rw [if_neg (show ¬ hasSub unimplTok (subCB (pyStrip l)) = true by simp [h2])]
  by_cases hty : prefixB typedefTok (subCB (pyStrip l)) = true
  · rw [if_pos hty]
  · rw [if_neg hty]
    rcases h3 with hty2 | hsh
    · exact absurd hty2 hty
    · rw [if_pos hsh]

/-- C3 amended: a candidate line rejected by the structural shape filter
(or a typedef line) is silently discarded: the scan of the remaining lines
is unchanged, so the remaining candidates are still processed.  A candidate
that passes the shape filter but that the Declaration Parser rejects is NOT
discarded: the exception aborts the lookup (see the counterexample). -/
theorem discard_amended (l : Str) (rest : List Str) (acc : List Defn) (h : skipLine l) :
    scanLines (l :: rest) acc = scanLines rest acc := scan_skip l rest acc h

theorem discard_amended_witness :
    skipLine ("#include <fcntl.h>".data) ∧
    scanLines ("#include <fcntl.h>".data :: ["DESCRIPTION".data]) [] =
      scanLines ["DESCRIPTION".data] [] :=
  ⟨by decide, discard_amended _ _ _ (by decide)⟩

theorem scan_unimpl (pre : List Str) : ∀ (u : Str) (post : List Str) (acc : List Defn),
    (∀ l ∈ pre, skipLine l) → hasSub unimplTok (subCB (pyStrip u)) = true →
    scanLines (pre ++ u :: post) acc = .ok .unimpl := by
  induction pre with
  | nil =>
    intro u post acc _ hu
    have hd : subCB (pyStrip u) ≠ descriptionTok := by
      intro he
      rw [he] at hu
      exact absurd hu (by decide)
    simp only [List.nil_append, scanLines]
    rw [if_neg hd, if_pos hu]
  | cons l pre ih =>
    intro u post acc hskip hu
    rw [List.cons_append, scan_skip l _ acc (hskip l (List.mem_cons_self _ _))]
    exact ih u post acc (fun x hx => hskip x (List.mem_cons_of_mem _ hx)) hu

/-- C7 amended: when the synopsis region contains a line with the
Unimplemented marker and every region line before it is one the scan
discards (typedef or shape-rejected), the lookup returns the Unimplemented
outcome no matter what follows the marker line — including further
declaration candidates, well-formed or not.  If a shaped candidate before
the marker fails to parse, the exception wins instead (see the
counterexample). -/
theorem unimplemented_shortcircuit_amended (qname syn : Str) (pre : List Str) (u : Str)
    (post : List Str) (hsyn : subCB syn = synopsisTok)
    (hpre : ∀ l ∈ pre, skipLine l) (hu : hasSub unimplTok (subCB (pyStrip u)) = true) :
    parseManual qname (syn :: (pre ++ u :: post)) = .ok .unimplemented := by
  unfold parseManual
  have hfs : findSynopsis (syn :: (pre ++ u :: post)) = .ok (pre ++ u :: post) := by
    simp [findSynopsis, hsyn]
  simp [hfs, scan_unimpl pre u post [] hpre hu]

theorem unimplemented_shortcircuit_witness :
    (subCB ("SYNOPSIS".data) = synopsisTok ∧
      (∀ l ∈ (["#include <fcntl.h>".data] : List Str), skipLine l) ∧
      hasSub unimplTok (subCB (pyStrip ("Unimplemented system calls.".data))) = true) ∧
    parseManual ("foo".data)
      ("SYNOPSIS".data :: (["#include <fcntl.h>".data] ++
        "Unimplemented system calls.".data :: ["int foo(a b c);".data, "DESCRIPTION".data])) =
      .ok .unimplemented :=
  ⟨⟨by decide, by decide, by decide⟩,
    unimplemented_shortcircuit_amended _ _ _ _ _ (by decide) (by decide) (by decide)⟩

theorem findSynopsis_none (doc : List Str) (h : ∀ l ∈ doc, subCB l ≠ synopsisTok) :
    findSynopsis doc = .error .synopsisMissing := by
  induction doc with
  | nil => rfl
  | cons l rest ih =>
    simp only [findSynopsis]
    rw [if_neg (h l (List.mem_cons_self _ _))]
    exact ih (fun x hx => h x (List.mem_cons_of_mem _ hx))

theorem scan_allSkip (lines : List Str) : ∀ acc, (∀ l ∈ lines, skipLine l) →
    scanLines lines acc = .error .descriptionMissing := by
  induction lines with
  | nil => intro acc _; rfl
  | cons l rest ih =>
    intro acc h
    rw [scan_skip l rest acc (h l (List.mem_cons_self _ _))]
    exact ih acc (fun x hx => h x (List.mem_cons_of_mem _ hx))

/-- C8 amended: a document with no line that backspace-normalizes to the
SYNOPSIS marker fails with the missing-SYNOPSIS MalformedDocument error;
a document whose region after the SYNOPSIS marker consists only of
discarded lines (no DESCRIPTION marker, no Unimplemented marker, no shaped
candidate) runs off the end and fails with the missing-DESCRIPTION
MalformedDocument error.  In both cases the lookup raises rather than
returning NotFound.  When the region ends while a shaped candidate is
being joined, the failure is the lookahead index error instead (see the
counterexample). -/
theorem malformed_document_amended :
    (∀ (qname : Str) (doc : List Str), (∀ l ∈ doc, subCB l ≠ synopsisTok) →
      parseManual qname doc = .error .synopsisMissing) ∧
    (∀ (qname syn : Str) (pre : List Str), subCB syn = synopsisTok →
      (∀ l ∈ pre, skipLine l) →
      parseManual qname (syn :: pre) = .error .descriptionMissing) := by
  constructor
  · intro qname doc h
    unfold parseManual
    rw [findSynopsis_none doc h]
  · intro qname syn pre hsyn hpre
    unfold parseManual
    have hfs : findSynopsis (syn :: pre) = .ok pre := by simp [findSynopsis, hsyn]
    simp [hfs, scan_allSkip pre [] hpre]

theorem malformed_document_witness :
    ((∀ l ∈ (["NAME".data, "no markers here".data] : List Str), subCB l ≠ synopsisTok) ∧
      parseManual ("foo".data) ["NAME".data, "no markers here".data] =
        .error .synopsisMissing) ∧
    ((subCB ("SYNOPSIS".data) = synopsisTok ∧
        ∀ l ∈ (["#include <unistd.h>".data] : List Str), skipLine l) ∧
      parseManual ("foo".data) ("SYNOPSIS".data :: ["#include <unistd.h>".data]) =
        .error .descriptionMissing) :=
  ⟨⟨by decide, malformed_document_amended.1 _ _ (by decide)⟩,
    ⟨⟨by decide, by decide⟩, malformed_document_amended.2 _ _ _ (by decide) (by decide)⟩⟩

/-! ### Shapes of plain tokens -/

theorem plainTok_nonspace (t : Str) (h : plainTok t) : ∀ c ∈ t, pyIsSpace c = false :=
  fun c hc => plainChar_not_space c (h.2 c hc)

theorem plainTok_head (t : Str) (h : plainTok t) :
    ∃ c r, t = c :: r ∧ plainChar c = true := by
  cases t with
  | nil => exact absurd rfl h.1
  | cons c r => exact ⟨c, r, rfl, h.2 c (List.mem_cons_self c r)⟩

theorem plainTok_concat (t : Str) (h : plainTok t) :
    ∃ u d, t = u ++ [d] ∧ plainChar d = true := by
  rcases List.eq_nil_or_concat t with he | ⟨u, d, he⟩
  · exact absurd he h.1
  · rw [List.concat_eq_append] at he
    exact ⟨u, d, he, h.2 d (by rw [he]; simp)⟩

theorem suffixB_concat (c d : Char) (u : Str) : suffixB [c] (u ++ [d]) = (c == d) := by
  simp [suffixB, prefixB, List.reverse_append]

theorem prefixB_single (c d : Char) (t : Str) : prefixB [c] (d :: t) = (c == d) := by
  simp [prefixB]

theorem suffixB_brackets_true (u : Str) : suffixB bracketsTok (u ++ ['[', ']']) = true := by
  have hb : bracketsTok.reverse = [']', '['] := by decide
  have hr : (u ++ ['[', ']']).reverse = ']' :: '[' :: u.reverse := by
    rw [show ['[', ']'] = ['['] ++ [']'] from rfl, ← List.append_assoc, List.reverse_append,
      List.reverse_append]
    rfl
  simp [suffixB, hb, hr, prefixB]

theorem suffixB_brackets_false (u : Str) (d : Char) (hd : d ≠ ']') :
    suffixB bracketsTok (u ++ [d]) = false := by
  have hb : bracketsTok.reverse = [']', '['] := by decide
  have hr : (u ++ [d]).reverse = d :: u.reverse := by simp [List.reverse_append]
  have hbeq : (']' == d) = false := by
    cases he : ']' == d with
    | false => rfl
    | true => exact absurd (eq_of_beq he).symm hd
  simp [suffixB, hb, hr, prefixB, hbeq]

/-! ### qcat and keyword facts -/

theorem qcat_cons_append (w : Str) (ws : List Str) (X : Str) :
    qcat (w :: ws) ++ X = w ++ ' ' :: (qcat ws ++ X) := by
  simp [qcat, List.append_assoc]

theorem kw_shape : ∀ w ∈ kwList, w ≠ [] ∧ (∀ c ∈ w, pyIsSpace c = false) ∧
    (∀ c ∈ w, plainChar c = true) := by decide

theorem kw_head : ∀ w ∈ kwList, ∃ c t, w = c :: t ∧ pyIsSpace c = false := by
  intro w hw
  simp only [kwList, List.mem_cons, List.not_mem_nil, or_false] at hw
  rcases hw with rfl | rfl | rfl | rfl | rfl
  · exact ⟨'u', _, rfl, by decide⟩
  · exact ⟨'c', _, rfl, by decide⟩
  · exact ⟨'s', _, rfl, by decide⟩
  · exact ⟨'u', _, rfl, by decide⟩
  · exact ⟨'e', _, rfl, by decide⟩

theorem qcat_head (ws : List Str) (rest : Str) (hws : ∀ w ∈ ws, w ∈ kwList)
    (hrest : ∃ c t, rest = c :: t ∧ pyIsSpace c = false) :
    ∃ c t, qcat ws ++ rest = c :: t ∧ pyIsSpace c = false := by
  cases ws with
  | nil =>
    obtain ⟨c, t, he, hc⟩ := hrest
    exact ⟨c, t, by simp [qcat, he], hc⟩
  | cons w ws2 =>
    obtain ⟨c, t, he, hc⟩ := kw_head w (hws w (List.mem_cons_self _ _))
    exact ⟨c, t ++ ' ' :: (qcat ws2 ++ rest), by rw [qcat_cons_append, he]; simp, hc⟩

theorem qcat_mem (ws : List Str) : ∀ c ∈ qcat ws, (∃ w ∈ ws, c ∈ w) ∨ c = ' ' := by
  induction ws with
  | nil => intro c hc; cases hc
  | cons w ws ih =>
    intro c hc
    simp only [qcat] at hc
    rcases List.mem_append.mp hc with h | h
    · exact Or.inl ⟨w, List.mem_cons_self _ _, h⟩
    · rcases List.mem_cons.mp h with rfl | h2
      · exact Or.inr rfl
      · rcases ih c h2 with ⟨w2, hw2, hcw2⟩ | h3
        · exact Or.inl ⟨w2, List.mem_cons_of_mem _ hw2, hcw2⟩
        · exact Or.inr h3

/-! ### The peel loop on canonical type strings -/

theorem updKw_eval_unsigned (r : Param) : updKw kwUnsigned r = { r with unsigned := true } := by
  unfold updKw; rw [if_pos rfl]

theorem updKw_eval_const (r : Param) : updKw kwConst r = { r with const := true } := by
  unfold updKw; rw [if_neg (by decide), if_pos rfl]

theorem updKw_eval_struct (r : Param) : updKw kwStruct r = { r with struct := true } := by
  unfold updKw; rw [if_neg (by decide), if_neg (by decide), if_pos rfl]

theorem updKw_eval_union (r : Param) : updKw kwUnion r = { r with union := true } := by
  unfold updKw; rw [if_neg (by decide), if_neg (by decide), if_neg (by decide), if_pos rfl]

theorem updKw_eval_enum (r : Param) : updKw kwEnum r = { r with enum := true } := by
  unfold updKw
  rw [if_neg (by decide), if_neg (by decide), if_neg (by decide), if_neg (by decide)]


theorem peel_single (r : Param) (h : ∀ c ∈ r.ptype, pyIsSpace c = false) :
    peelType r = .ok r := by
  unfold peelType
  simp only [peelF, pySplit1WS_single r.ptype h]

theorem peel_quals (ws : List Str) :
    ∀ (pn : Str) (e en ar c un st po uns fn cp : Bool) (rest : Str),
    (∀ w ∈ ws, w ∈ kwList) →
    (∃ ch t, rest = ch :: t ∧ pyIsSpace ch = false) →
    peelType (Param.mk (qcat ws ++ rest) pn e en ar c un st po uns fn cp) =
      peelType (updKws ws (Param.mk rest pn e en ar c un st po uns fn cp)) := by
  induction ws with
  | nil =>
    intro pn e en ar c un st po uns fn cp rest _ _
    rfl
  | cons w ws ih =>
    intro pn e en ar c un st po uns fn cp rest hws hrest
    have hwkw := hws w (List.mem_cons_self _ _)
    obtain ⟨hwne, hwnw, _⟩ := kw_shape w hwkw
    have hws2 : ∀ x ∈ ws, x ∈ kwList := fun x hx => hws x (List.mem_cons_of_mem _ hx)
    obtain ⟨ch, th, hh, hch⟩ := qcat_head ws rest hws2 hrest
    have hq := qcat_cons_append w ws rest
    have hsp : pySplit1WS (qcat (w :: ws) ++ rest) = some (w, qcat ws ++ rest) := by
      rw [hq]
      exact pySplit1WS_app w _ hwne hwnw ch th hh hch
    obtain ⟨_, hlt⟩ := pySplit1WS_lt _ _ _ hsp
    have hlen : (qcat ws ++ rest).length < (qcat (w :: ws) ++ rest).length := hlt
    unfold peelType
    simp only [peelF, hsp]
    simp only [kwList, List.mem_cons, List.not_mem_nil, or_false] at hwkw
    rcases hwkw with rfl | rfl | rfl | rfl | rfl
    · rw [if_pos rfl]
      rw [peelF_eq_peelType _ _ (show (Param.mk (qcat ws ++ rest) pn e en ar c un st po true fn
        cp).ptype.length < (Param.mk (qcat (kwUnsigned :: ws) ++ rest) pn e en ar c un st po uns
        fn cp).ptype.length from hlen)]
      exact ih pn e en ar c un st po true fn cp rest hws2 hrest
    · rw [if_neg (by decide), if_pos rfl]
      rw [peelF_eq_peelType _ _ (show (Param.mk (qcat ws ++ rest) pn e en ar true un st po uns fn
        cp).ptype.length < (Param.mk (qcat (kwConst :: ws) ++ rest) pn e en ar c un st po uns
        fn cp).ptype.length from hlen)]
      exact ih pn e en ar true un st po uns fn cp rest hws2 hrest
    · rw [if_neg (by decide), if_neg (by decide), if_pos rfl]
      rw [peelF_eq_peelType _ _ (show (Param.mk (qcat ws ++ rest) pn e en ar c un true po uns fn
        cp).ptype.length < (Param.mk (qcat (kwStruct :: ws) ++ rest) pn e en ar c un st po uns
        fn cp).ptype.length from hlen)]
      exact ih pn e en ar c un true po uns fn cp rest hws2 hrest
    · rw [if_neg (by decide), if_neg (by decide), if_neg (by decide), if_pos rfl]
      rw [peelF_eq_peelType _ _ (show (Param.mk (qcat ws ++ rest) pn e en ar c true st po uns fn
        cp).ptype.length < (Param.mk (qcat (kwUnion :: ws) ++ rest) pn e en ar c un st po uns
        fn cp).ptype.length from hlen)]
      exact ih pn e en ar c true st po uns fn cp rest hws2 hrest
    · rw [if_neg (by decide), if_neg (by decide), if_neg (by decide), if_neg (by decide),
        if_pos rfl]
      rw [peelF_eq_peelType _ _ (show (Param.mk (qcat ws ++ rest) pn e true ar c un st po uns fn
        cp).ptype.length < (Param.mk (qcat (kwEnum :: ws) ++ rest) pn e en ar c un st po uns
        fn cp).ptype.length from hlen)]
      exact ih pn e true ar c un st po uns fn cp rest hws2 hrest

theorem mem_of_mem_ite {α : Type} {P : Prop} [Decidable P] {L : List α} {c : α}
    (h : c ∈ if P then L else []) : c ∈ L := by
  by_cases hp : P
  · rwa [if_pos hp] at h
  · rw [if_neg hp] at h; cases h

theorem qualWords_sub (p : Param) : ∀ w ∈ qualWords p, w ∈ kwList := by
  intro w hw
  unfold qualWords at hw
  split_ifs at hw <;> simp_all [kwList] <;> tauto

theorem qualStr_eq (p : Param) : qualStr p = qcat (qualWords p) := by
  cases hc : p.const <;> cases hs : p.struct <;> cases hu : p.union <;>
    cases he : p.enum <;> cases hn : p.unsigned <;>
    simp [qualStr, qualWords, qcat, hc, hs, hu, he, hn] <;> decide

theorem updKws_qualWords (p : Param) (pt pn : Str) (e ar po fn cp : Bool) :
    updKws (qualWords p) (Param.mk pt pn e false ar false false false po false fn cp) =
      Param.mk pt pn e p.enum ar p.const p.union p.struct po p.unsigned fn cp := by
  cases hc : p.const <;> cases hs : p.struct <;> cases hu : p.union <;>
    cases he : p.enum <;> cases hn : p.unsigned <;>
    simp [qualWords, updKws, hc, hs, hu, he, hn, updKw_eval_unsigned, updKw_eval_const,
      updKw_eval_struct, updKw_eval_union, updKw_eval_enum]

theorem st1_eval (p : Param) (hN : plainTok p.pname) :
    (if prefixB ['*'] ((if p.pointer = true then ['*'] else []) ++
        (p.pname ++ (if p.array = true then bracketsTok else []))) = true
      then (true, ((if p.pointer = true then ['*'] else []) ++
        (p.pname ++ (if p.array = true then bracketsTok else []))).drop 1)
      else (false, (if p.pointer = true then ['*'] else []) ++
        (p.pname ++ (if p.array = true then bracketsTok else [])))) =
      (p.pointer, p.pname ++ (if p.array = true then bracketsTok else [])) := by
  obtain ⟨c1, t1, hNh, hNc⟩ := plainTok_head _ hN
  cases hp : p.pointer
  · have hhead : (p.pname ++ (if p.array = true then bracketsTok else [])) =
        c1 :: (t1 ++ (if p.array = true then bracketsTok else [])) := by
      rw [hNh]; simp
    have hpre : prefixB ['*'] (p.pname ++ (if p.array = true then bracketsTok else [])) =
        false := by
      rw [hhead, prefixB_single]
      cases hbe : '*' == c1 with
      | false => rfl
      | true => exact absurd (eq_of_beq hbe) (plainChar_ne c1 '*' hNc (by decide)).symm
    simp [hpre]
  · simp [prefixB]

theorem st2_eval (p : Param) (hN : plainTok p.pname) :
    (if suffixB bracketsTok (p.pname ++ (if p.array = true then bracketsTok else [])) = true
      then (true, (p.pname ++ (if p.array = true then bracketsTok else [])).take
        ((p.pname ++ (if p.array = true then bracketsTok else [])).length - 2))
      else (false, p.pname ++ (if p.array = true then bracketsTok else []))) =
      (p.array, p.pname) := by
  obtain ⟨u1, d1, hNl, hNd⟩ := plainTok_concat _ hN
  cases harr : p.array
  · have hsf : suffixB bracketsTok p.pname = false := by
      rw [hNl]
      exact suffixB_brackets_false u1 d1 (plainChar_ne d1 ']' hNd (by decide))
    simp [hsf]
  · have hst : suffixB bracketsTok (p.pname ++ bracketsTok) = true := by
      rw [show (bracketsTok : Str) = ['[', ']'] from by decide]
      exact suffixB_brackets_true p.pname
    rw [show (if (true : Bool) = true then bracketsTok else ([] : Str)) = bracketsTok from rfl]
    rw [hst, if_pos rfl]
    rw [show (bracketsTok : Str) = ['[', ']'] from by decide]
    simp [List.take_left]

theorem app_space_ne_dots (A X : Str) : A ++ ' ' :: X ≠ dots := by
  intro he
  have hsp : ' ' ∈ dots := by
    rw [← he]; exact List.mem_append_right A (List.mem_cons_self _ _)
  exact absurd hsp (by decide)

theorem sfx_paren_false (A U : Str) (dl : Char) (hdl : (')' == dl) = false) :
    suffixB [')'] (A ++ ' ' :: (U ++ [dl])) = false := by
  rw [show A ++ ' ' :: (U ++ [dl]) = (A ++ ' ' :: U) ++ [dl] by simp, suffixB_concat, hdl]

theorem x_last (po ar : Bool) (pn : Str) (hN : plainTok pn) :
    ∃ U dl, (if po = true then ['*'] else []) ++ (pn ++ (if ar = true then bracketsTok else []))
      = U ++ [dl] ∧ (')' == dl) = false := by
  obtain ⟨u1, d1, hNl, hNd⟩ := plainTok_concat _ hN
  cases ar
  · refine ⟨(if po = true then ['*'] else []) ++ u1, d1, ?_, ?_⟩
    · rw [hNl]; simp
    · cases hbe : ')' == d1
      · rfl
      · exact absurd (eq_of_beq hbe).symm (plainChar_ne d1 ')' hNd (by decide))
  · refine ⟨(if po = true then ['*'] else []) ++ (pn ++ ['[']), ']', ?_, by decide⟩
    rw [show bracketsTok = ['[', ']'] from by decide]
    simp

theorem peel_cp_step (T pn : Str) (e en ar c un st po uns fn : Bool)
    (hT : plainTok T) (hTk : T ∉ kwList) :
    peelType (Param.mk (T ++ ' ' :: starConstTok) pn e en ar c un st po uns fn false) =
      Except.ok (Param.mk T pn e en ar c un st po uns fn true) := by
  have hTnw : ∀ x ∈ T, pyIsSpace x = false := plainTok_nonspace _ hT
  have hsp : pySplit1WS (T ++ ' ' :: starConstTok) = some (T, starConstTok) :=
    pySplit1WS_app T starConstTok hT.1 hTnw '*' "const".data (by decide) (by decide)
  have hne : ∀ w ∈ kwList, ¬(T = w) := fun w hw he => hTk (he ▸ hw)
  have hlen : (Param.mk T pn e en ar c un st po uns fn true).ptype.length <
      (Param.mk (T ++ ' ' :: starConstTok) pn e en ar c un st po uns fn false).ptype.length := by
    show T.length < (T ++ ' ' :: starConstTok).length
    rw [List.length_append, show (' ' :: starConstTok).length = 7 from by decide]
    omega
  unfold peelType
  simp only [peelF, hsp]
  rw [if_neg (hne kwUnsigned (by decide)), if_neg (hne kwConst (by decide)),
    if_neg (hne kwStruct (by decide)), if_neg (hne kwUnion (by decide)),
    if_neg (hne kwEnum (by decide)), if_pos trivial]
  rw [peelF_eq_peelType _ _ hlen]
  exact peel_single _ hTnw

theorem idxOf_parenStar (A : Str) (s2 : Str) (hpre : prefixB parenStarPat s2 = true)
    (hnp : ∀ ch ∈ A, ¬(ch = '(')) :
    idxOfSub parenStarPat (A ++ s2) = some A.length := by
  induction A with
  | nil =>
    rw [List.nil_append]
    cases s2 with
    | nil => simp [idxOfSub, hpre]
    | cons c2 r2 => simp [idxOfSub, hpre]
  | cons a A2 ih =>
    have hnm : prefixB parenStarPat (a :: (A2 ++ s2)) = false := by
      rw [show parenStarPat = ' ' :: '(' :: ['*'] from by decide]
      rw [show parenStarPat = ' ' :: '(' :: ['*'] from by decide] at hpre
      cases hsa : ' ' == a with
      | false => simp [prefixB, hsa]
      | true =>
        cases A2 with
        | cons b A3 =>
          have hb : ¬(b = '(') := hnp b (List.mem_cons_of_mem _ (List.mem_cons_self _ _))
          have hbb : ('(' == b) = false := by
            cases hbe : '(' == b
            · rfl
            · exact absurd (eq_of_beq hbe).symm hb
          simp [prefixB, hbb]
        | nil =>
          cases s2 with
          | nil => simp [prefixB] at hpre
          | cons c2 r2 =>
            simp only [prefixB, Bool.and_eq_true] at hpre
            obtain ⟨h1, _⟩ := hpre
            obtain rfl : c2 = ' ' := (eq_of_beq h1).symm
            simp [prefixB, hsa, show (('(' : Char) == ' ') = false from by decide]
    rw [show (a :: A2) ++ s2 = a :: (A2 ++ s2) from rfl]
    simp only [idxOfSub]
    rw [hnm, if_neg (show ¬(false = true) by decide),
      ih (fun ch hc => hnp ch (List.mem_cons_of_mem _ hc))]
    simp

theorem no_paren_qcat (ws : List Str) (hws : ∀ w ∈ ws, w ∈ kwList) (R : Str)
    (hR : ∀ x ∈ R, ¬(x = '(')) : ∀ x ∈ qcat ws ++ R, ¬(x = '(') := by
  intro x hx
  rcases List.mem_append.mp hx with h1 | h2
  · rcases qcat_mem ws x h1 with ⟨w, hw, hxw⟩ | rfl
    · obtain ⟨_, _, hpl⟩ := kw_shape w (hws w hw)
      exact plainChar_ne x '(' (hpl x hxw) (by decide)
    · decide
  · exact hR x h2

theorem parse_core (A X nm1 nm : Str) (pv av : Bool) (P : Param)
    (hA : ∃ u d, A = u ++ [d] ∧ pyIsSpace d = false)
    (hXne : X ≠ []) (hXnw : ∀ x ∈ X, pyIsSpace x = false)
    (hsfx : suffixB [')'] (A ++ ' ' :: X) = false)
    (hst1 : (if prefixB ['*'] X = true then (true, X.drop 1) else (false, X)) = (pv, nm1))
    (hst2 : (if suffixB bracketsTok nm1 = true then (true, nm1.take (nm1.length - 2))
      else (false, nm1)) = (av, nm))
    (hres : peelType (Param.mk A nm false false av false false false pv false false false) =
      Except.ok P) :
    parseParam (A ++ ' ' :: X) = Except.ok P := by
  have hnp := app_space_ne_dots A X
  have hrs : pyRsplit1 (A ++ ' ' :: X) = some (A, X) := pyRsplit1_app A X hA hXne hXnw
  unfold parseParam
  rw [if_neg hnp, hsfx, if_neg (show ¬(false = true) by decide), hrs]
  show (let st1 := if prefixB ['*'] X = true then (true, X.drop 1) else (false, X);
      let st2 := if suffixB bracketsTok st1.2 = true then (true, st1.2.take (st1.2.length - 2))
        else (false, st1.2);
      peelType (Param.mk A st2.2 false false st2.1 false false false st1.1 false false false))
      = Except.ok P
  rw [hst1]
  show (let st2 := if suffixB bracketsTok nm1 = true then (true, nm1.take (nm1.length - 2))
        else (false, nm1);
      peelType (Param.mk A st2.2 false false st2.1 false false false pv false false false))
      = Except.ok P
  rw [hst2]
  exact hres

theorem parse_fn_core (A : Str) (mid : Str) (P : Param)
    (hnoparen : ∀ x ∈ A, ¬(x = '('))
    (hAh : ∃ ch t, A = ch :: t ∧ pyIsSpace ch = false)
    (hA : ∃ u d, A = u ++ [d] ∧ pyIsSpace d = false)
    (hres : peelType (Param.mk A ('(' :: '*' :: (mid ++ [')'])) false false false false false
      false false false true false) = Except.ok P) :
    parseParam (A ++ ' ' :: ('(' :: '*' :: (mid ++ [')']))) = Except.ok P := by
  have hnp := app_space_ne_dots A ('(' :: '*' :: (mid ++ [')']))
  have hsfx : suffixB [')'] (A ++ ' ' :: ('(' :: '*' :: (mid ++ [')']))) = true := by
    rw [show A ++ ' ' :: ('(' :: '*' :: (mid ++ [')'])) =
      (A ++ ' ' :: '(' :: '*' :: mid) ++ [')'] by simp, suffixB_concat]
    rfl
  have hpre : prefixB parenStarPat (' ' :: '(' :: '*' :: (mid ++ [')'])) = true := rfl
  have hidx : idxOfSub parenStarPat (A ++ ' ' :: ('(' :: '*' :: (mid ++ [')']))) =
      some A.length := idxOf_parenStar A _ hpre hnoparen
  have hstripA : pyStrip A = A := pyStrip_id A hAh hA
  have hstripF : pyStrip (' ' :: ('(' :: '*' :: (mid ++ [')']))) =
      '(' :: '*' :: (mid ++ [')']) := by
    unfold pyStrip
    rw [List.dropWhile_cons, if_pos (show pyIsSpace ' ' = true by decide),
      dropWhile_cons_false _ '(' _ (show pyIsSpace '(' = false by decide),
      show ('(' : Char) :: '*' :: (mid ++ [')']) = ('(' :: '*' :: mid) ++ [')'] by simp,
      dropLastWhile_concat_false _ _ _ (show pyIsSpace ')' = false by decide)]
  have hpF : prefixB ['*'] ('(' :: '*' :: (mid ++ [')'])) = false := by
    rw [prefixB_single]; decide
  have hbF : suffixB bracketsTok ('(' :: '*' :: (mid ++ [')'])) = false := by
    rw [show ('(' : Char) :: '*' :: (mid ++ [')']) = ('(' :: '*' :: mid) ++ [')'] by simp]
    exact suffixB_brackets_false _ ')' (by decide)
  unfold parseParam
  rw [if_neg hnp, hsfx, if_pos rfl, hidx]
  show (let ty0 := pyStrip (List.take A.length (A ++ ' ' :: ('(' :: '*' :: (mid ++ [')']))));
      let nm0 := pyStrip (List.drop A.length (A ++ ' ' :: ('(' :: '*' :: (mid ++ [')']))));
      let st1 := if prefixB ['*'] nm0 = true then (true, nm0.drop 1) else (false, nm0);
      let st2 := if suffixB bracketsTok st1.2 = true
        then (true, st1.2.take (st1.2.length - 2)) else (false, st1.2);
      peelType (Param.mk ty0 st2.2 false false st2.1 false false false st1.1 false true false))
      = Except.ok P
  rw [List.take_left, List.drop_left, hstripA, hstripF]
  show (let st1 := if prefixB ['*'] ('(' :: '*' :: (mid ++ [')'])) = true
        then (true, ('(' :: '*' :: (mid ++ [')'])).drop 1)
        else (false, '(' :: '*' :: (mid ++ [')']));
      let st2 := if suffixB bracketsTok st1.2 = true
        then (true, st1.2.take (st1.2.length - 2)) else (false, st1.2);
      peelType (Param.mk A st2.2 false false st2.1 false false false st1.1 false true false))
      = Except.ok P
  rw [hpF, if_neg (show ¬(false = true) by decide)]
  show (let st2 := if suffixB bracketsTok ('(' :: '*' :: (mid ++ [')'])) = true
        then (true, List.take (('(' :: '*' :: (mid ++ [')'])).length - 2)
          ('(' :: '*' :: (mid ++ [')'])))
        else (false, '(' :: '*' :: (mid ++ [')'])) ;
      peelType (Param.mk A st2.2 false false st2.1 false false false false false true false))
      = Except.ok P
  rw [hbF, if_neg (show ¬(false = true) by decide)]
  exact hres

theorem parse_print_reg (p : Param) (h : FragReg p) : parseParam (paramStr p) = Except.ok p := by
  obtain ⟨pt, pn, e, en, ar, c, un, st, po, uns, fn, cp⟩ := p
  unfold FragReg at h
  obtain ⟨hell, hfn, hT, hTk, hN⟩ := h
  have he0 : e = false := hell
  have hf0 : fn = false := hfn
  subst he0 hf0
  have hT2 : plainTok pt := hT
  have hTk2 : pt ∉ kwList := hTk
  have hN2 : plainTok pn := hN
  obtain ⟨c0, t0, hTh, hTc⟩ := plainTok_head _ hT2
  obtain ⟨u0, d0, hTl, hTd⟩ := plainTok_concat _ hT2
  have hXne : ((if po = true then ['*'] else []) ++
      (pn ++ (if ar = true then bracketsTok else []))) ≠ [] := by
    intro hxe
    have h2 := (List.append_eq_nil.mp hxe).2
    exact hN2.1 (List.append_eq_nil.mp h2).1
  have hXnw : ∀ x ∈ ((if po = true then ['*'] else []) ++
      (pn ++ (if ar = true then bracketsTok else []))), pyIsSpace x = false := by
    intro x hx
    rcases List.mem_append.mp hx with h1 | h2
    · have hm := mem_of_mem_ite h1
      rw [List.mem_singleton] at hm
      subst hm; decide
    · rcases List.mem_append.mp h2 with h3 | h4
      · exact plainTok_nonspace _ hN2 x h3
      · have hm := mem_of_mem_ite h4
        rw [show (bracketsTok : Str) = ['[', ']'] from by decide] at hm
        simp only [List.mem_cons, List.not_mem_nil, or_false] at hm
        rcases hm with rfl | rfl <;> decide
  obtain ⟨U, dl, hXl, hdl⟩ := x_last po ar pn hN2
  cases cp
  · set P0 := Param.mk pt pn false en ar c un st po uns false false with hP0
    have hqw : ∀ w ∈ qualWords P0, w ∈ kwList := qualWords_sub P0
    have hps : paramStr P0 = (qcat (qualWords P0) ++ pt) ++
        ' ' :: ((if po = true then ['*'] else []) ++
          (pn ++ (if ar = true then bracketsTok else []))) := by
      rw [hP0]
      simp [paramStr, paramTail, qualStr_eq, List.append_assoc,
        show (bracketsTok : Str) = ['[', ']'] from by decide]
    have hA : ∃ u d, qcat (qualWords P0) ++ pt = u ++ [d] ∧ pyIsSpace d = false := by
      refine ⟨qcat (qualWords P0) ++ u0, d0, ?_, plainChar_not_space d0 hTd⟩
      rw [hTl]; simp
    have hsfx : suffixB [')'] ((qcat (qualWords P0) ++ pt) ++
        ' ' :: ((if po = true then ['*'] else []) ++
          (pn ++ (if ar = true then bracketsTok else [])))) = false := by
      rw [hXl]; exact sfx_paren_false _ U dl hdl
    have hres : peelType (Param.mk (qcat (qualWords P0) ++ pt) pn false false ar
        false false false po false false false) = Except.ok P0 := by
      rw [peel_quals (qualWords P0) pn false false ar false false false po false false false
        pt hqw ⟨c0, t0, hTh, plainChar_not_space c0 hTc⟩]
      rw [updKws_qualWords P0 pt pn false ar po false false]
      exact peel_single _ (plainTok_nonspace pt hT2)
    rw [hps]
    exact parse_core (qcat (qualWords P0) ++ pt)
      ((if po = true then ['*'] else []) ++ (pn ++ (if ar = true then bracketsTok else [])))
      (pn ++ (if ar = true then bracketsTok else [])) pn po ar P0
      hA hXne hXnw hsfx (st1_eval P0 hN2) (st2_eval P0 hN2) hres
  · set P1 := Param.mk pt pn false en ar c un st po uns false true with hP1
    have hqw : ∀ w ∈ qualWords P1, w ∈ kwList := qualWords_sub P1
    have hps : paramStr P1 = (qcat (qualWords P1) ++ (pt ++ ' ' :: starConstTok)) ++
        ' ' :: ((if po = true then ['*'] else []) ++
          (pn ++ (if ar = true then bracketsTok else []))) := by
      rw [hP1]
      simp [paramStr, paramTail, qualStr_eq, List.append_assoc,
        show "*const ".data = starConstTok ++ [' '] from by decide,
        show (starConstTok : Str) = ['*', 'c', 'o', 'n', 's', 't'] from by decide,
        show (bracketsTok : Str) = ['[', ']'] from by decide]
    have hA : ∃ u d, qcat (qualWords P1) ++ (pt ++ ' ' :: starConstTok) = u ++ [d] ∧
        pyIsSpace d = false := by
      refine ⟨qcat (qualWords P1) ++ (pt ++ ' ' :: "*cons".data), 't', ?_, by decide⟩
      rw [show starConstTok = "*cons".data ++ ['t'] from by decide]; simp
    have hsfx : suffixB [')'] ((qcat (qualWords P1) ++ (pt ++ ' ' :: starConstTok)) ++
        ' ' :: ((if po = true then ['*'] else []) ++
          (pn ++ (if ar = true then bracketsTok else [])))) = false := by
      rw [hXl]; exact sfx_paren_false _ U dl hdl
    have hres : peelType (Param.mk (qcat (qualWords P1) ++ (pt ++ ' ' :: starConstTok)) pn
        false false ar false false false po false false false) = Except.ok P1 := by
      rw [peel_quals (qualWords P1) pn false false ar false false false po false false false
        (pt ++ ' ' :: starConstTok) hqw
        ⟨c0, t0 ++ ' ' :: starConstTok, by rw [hTh]; rfl, plainChar_not_space c0 hTc⟩]
      rw [updKws_qualWords P1 (pt ++ ' ' :: starConstTok) pn false ar po false false]
      exact peel_cp_step pt pn false P1.enum ar P1.const P1.union P1.struct po P1.unsigned
        false hT2 hTk2
    rw [hps]
    exact parse_core (qcat (qualWords P1) ++ (pt ++ ' ' :: starConstTok))
      ((if po = true then ['*'] else []) ++ (pn ++ (if ar = true then bracketsTok else [])))
      (pn ++ (if ar = true then bracketsTok else [])) pn po ar P1
      hA hXne hXnw hsfx (st1_eval P1 hN2) (st2_eval P1 hN2) hres

theorem parse_print_fn (p : Param) (h : FragFn p) : parseParam (paramStr p) = Except.ok p := by
  obtain ⟨pt, pn, e, en, ar, c, un, st, po, uns, fn, cp⟩ := p
  unfold FragFn at h
  obtain ⟨hell, hfn, hpo, har, hT, hTk, mid, hpn⟩ := h
  have he0 : e = false := hell
  have hf1 : fn = true := hfn
  have hp0 : po = false := hpo
  have ha0 : ar = false := har
  subst he0 hf1 hp0 ha0
  have hT2 : plainTok pt := hT
  have hTk2 : pt ∉ kwList := hTk
  have hpn2 : pn = '(' :: '*' :: (mid ++ [')']) := hpn
  subst hpn2
  obtain ⟨c0, t0, hTh, hTc⟩ := plainTok_head _ hT2
  obtain ⟨u0, d0, hTl, hTd⟩ := plainTok_concat _ hT2
  have hptnp : ∀ x ∈ pt, ¬(x = '(') := fun x hx =>
    plainChar_ne x '(' (hT2.2 x hx) (by decide)
  cases cp
  · set P0 := Param.mk pt ('(' :: '*' :: (mid ++ [')'])) false en false c un st false uns
      true false with hP0
    have hqw : ∀ w ∈ qualWords P0, w ∈ kwList := qualWords_sub P0
    have hps : paramStr P0 = (qcat (qualWords P0) ++ pt) ++
        ' ' :: ('(' :: '*' :: (mid ++ [')'])) := by
      rw [hP0]
      simp [paramStr, paramTail, qualStr_eq, List.append_assoc]
    have hnoparen : ∀ x ∈ qcat (qualWords P0) ++ pt, ¬(x = '(') :=
      no_paren_qcat (qualWords P0) hqw pt hptnp
    have hAh : ∃ ch t, qcat (qualWords P0) ++ pt = ch :: t ∧ pyIsSpace ch = false :=
      qcat_head (qualWords P0) pt hqw ⟨c0, t0, hTh, plainChar_not_space c0 hTc⟩
    have hA : ∃ u d, qcat (qualWords P0) ++ pt = u ++ [d] ∧ pyIsSpace d = false := by
      refine ⟨qcat (qualWords P0) ++ u0, d0, ?_, plainChar_not_space d0 hTd⟩
      rw [hTl]; simp
    have hres : peelType (Param.mk (qcat (qualWords P0) ++ pt) ('(' :: '*' :: (mid ++ [')']))
        false false false false false false false false true false) = Except.ok P0 := by
      rw [peel_quals (qualWords P0) ('(' :: '*' :: (mid ++ [')'])) false false false false
        false false false false true false pt hqw ⟨c0, t0, hTh, plainChar_not_space c0 hTc⟩]
      rw [updKws_qualWords P0 pt ('(' :: '*' :: (mid ++ [')'])) false false false true false]
      exact peel_single _ (plainTok_nonspace pt hT2)
    rw [hps]
    exact parse_fn_core (qcat (qualWords P0) ++ pt) mid P0 hnoparen hAh hA hres
  · set P1 := Param.mk pt ('(' :: '*' :: (mid ++ [')'])) false en false c un st false uns
      true true with hP1
    have hqw : ∀ w ∈ qualWords P1, w ∈ kwList := qualWords_sub P1
    have hps : paramStr P1 = (qcat (qualWords P1) ++ (pt ++ ' ' :: starConstTok)) ++
        ' ' :: ('(' :: '*' :: (mid ++ [')'])) := by
      rw [hP1]
      simp [paramStr, paramTail, qualStr_eq, List.append_assoc,
        show "*const ".data = starConstTok ++ [' '] from by decide,
        show (starConstTok : Str) = ['*', 'c', 'o', 'n', 's', 't'] from by decide]
    have hnoparen : ∀ x ∈ qcat (qualWords P1) ++ (pt ++ ' ' :: starConstTok), ¬(x = '(') := by
      refine no_paren_qcat (qualWords P1) hqw _ ?_
      intro x hx
      rcases List.mem_append.mp hx with h1 | h2
      · exact hptnp x h1
      · rcases List.mem_cons.mp h2 with rfl | h3
        · decide
        · exact (show ∀ y ∈ starConstTok, ¬(y = '(') by decide) x h3
    have hAh : ∃ ch t, qcat (qualWords P1) ++ (pt ++ ' ' :: starConstTok) = ch :: t ∧
        pyIsSpace ch = false :=
      qcat_head (qualWords P1) _ hqw
        ⟨c0, t0 ++ ' ' :: starConstTok, by rw [hTh]; rfl, plainChar_not_space c0 hTc⟩
    have hA : ∃ u d, qcat (qualWords P1) ++ (pt ++ ' ' :: starConstTok) = u ++ [d] ∧
        pyIsSpace d = false := by
      refine ⟨qcat (qualWords P1) ++ (pt ++ ' ' :: "*cons".data), 't', ?_, by decide⟩
      rw [show starConstTok = "*cons".data ++ ['t'] from by decide]; simp
    have hres : peelType (Param.mk (qcat (qualWords P1) ++ (pt ++ ' ' :: starConstTok))
        ('(' :: '*' :: (mid ++ [')'])) false false false false false false false false true
        false) = Except.ok P1 := by
      rw [peel_quals (qualWords P1) ('(' :: '*' :: (mid ++ [')'])) false false false false
        false false false false true false (pt ++ ' ' :: starConstTok) hqw
        ⟨c0, t0 ++ ' ' :: starConstTok, by rw [hTh]; rfl, plainChar_not_space c0 hTc⟩]
      rw [updKws_qualWords P1 (pt ++ ' ' :: starConstTok) ('(' :: '*' :: (mid ++ [')'])) false
        false false true false]
      exact peel_cp_step pt ('(' :: '*' :: (mid ++ [')'])) false P1.enum false P1.const
        P1.union P1.struct false P1.unsigned true hT2 hTk2
    rw [hps]
    exact parse_fn_core (qcat (qualWords P1) ++ (pt ++ ' ' :: starConstTok)) mid P1
      hnoparen hAh hA hres

/-- C1: amended parameter round-trip law.  For every canonical fragment
descriptor (a regular identifier-shaped type and name with arbitrary
qualifier, pointer, const-pointer and array flags; the variadic marker; or
a function-pointer descriptor), the tokenizer accepts the serialized
fragment and reconstructs exactly the same descriptor.  The unrestricted
claim is refuted separately: serialization uses a fixed qualifier order, so
accepted fragments with another qualifier order do not round-trip. -/
theorem param_roundtrip_amended (p : Param) (h : FragOK p) :
    parseParam (paramStr p) = Except.ok p := by
  unfold FragOK at h
  rcases h with hr | he | hf
  · exact parse_print_reg p hr
  · subst he; decide
  · exact parse_print_fn p hf

theorem param_roundtrip_amended_witness :
    FragOK (Param.mk "char".data "argv".data false false true true false false true false
      false false) ∧
    parseParam (paramStr (Param.mk "char".data "argv".data false false true true false false
      true false false false)) =
      Except.ok (Param.mk "char".data "argv".data false false true true false false true
        false false false) :=
  ⟨Or.inl (by decide), param_roundtrip_amended _ (Or.inl (by decide))⟩

/-! ### Word-join identities for the declaration round trip -/

theorem joinSp_cons (t : Str) (ts : List Str) (h : ts ≠ []) :
    joinSp (t :: ts) = t ++ ' ' :: joinSp ts := by
  cases ts with
  | nil => exact absurd rfl h
  | cons t2 ts2 => rfl

theorem splitWSgo_word (w : Str) (h : ∀ c ∈ w, pyIsSpace c = false) :
    ∀ (acc s : Str), splitWSgo acc (w ++ s) = splitWSgo (w.reverse ++ acc) s := by
  induction w with
  | nil => intro acc s; simp
  | cons a w2 ih =>
    intro acc s
    have ha : pyIsSpace a = false := h a (List.mem_cons_self _ _)
    have h2 : ∀ c ∈ w2, pyIsSpace c = false := fun c hc => h c (List.mem_cons_of_mem _ hc)
    rw [show (a :: w2) ++ s = a :: (w2 ++ s) from rfl]
    simp only [splitWSgo, ha]
    rw [if_neg (show ¬(false = true) by decide), ih h2 (a :: acc) s]
    simp

theorem splitWSgo_end (acc : Str) (h : acc ≠ []) : splitWSgo acc [] = [acc.reverse] := by
  simp [splitWSgo, List.isEmpty_iff, h]

theorem splitWSgo_sep (acc s : Str) (h : acc ≠ []) :
    splitWSgo acc (' ' :: s) = acc.reverse :: splitWSgo [] s := by
  simp [splitWSgo, List.isEmpty_iff, h, show pyIsSpace ' ' = true from by decide]

theorem pySplitWS_join (ws : List Str) (hne : ws ≠ [])
    (h : ∀ w ∈ ws, w ≠ [] ∧ ∀ c ∈ w, pyIsSpace c = false) :
    pySplitWS (joinSp ws) = ws := by
  induction ws with
  | nil => exact absurd rfl hne
  | cons w ws2 ih =>
    obtain ⟨hwne, hwp⟩ := h w (List.mem_cons_self _ _)
    have h2 : ∀ x ∈ ws2, x ≠ [] ∧ ∀ c ∈ x, pyIsSpace c = false :=
      fun x hx => h x (List.mem_cons_of_mem _ hx)
    have hrne : w.reverse ≠ [] := by simp [hwne]
    cases ws2 with
    | nil =>
      show pySplitWS w = [w]
      unfold pySplitWS
      rw [← List.append_nil w, splitWSgo_word w hwp [] [],
        List.append_nil, splitWSgo_end _ hrne, List.reverse_reverse]
      simp
    | cons w2 ws3 =>
      rw [joinSp_cons _ _ (by simp)]
      unfold pySplitWS
      rw [splitWSgo_word w hwp [] (' ' :: joinSp (w2 :: ws3)), List.append_nil,
        splitWSgo_sep _ _ hrne, List.reverse_reverse]
      exact congrArg (w :: ·) (ih (by simp) h2)

theorem normWS_join (ws : List Str) (hne : ws ≠ [])
    (h : ∀ w ∈ ws, w ≠ [] ∧ ∀ c ∈ w, pyIsSpace c = false) :
    normWS (joinSp ws) = joinSp ws := by
  unfold normWS
  rw [pySplitWS_join ws hne h]

theorem replaceStarSpace_id (s : Str) (h : noStarSpace s = true) : replaceStarSpace s = s := by
  induction s with
  | nil => rfl
  | cons a t ih =>
    cases t with
    | nil => rfl
    | cons b rest =>
      simp only [noStarSpace, Bool.and_eq_true, Bool.not_eq_true'] at h
      obtain ⟨h1, h2⟩ := h
      simp only [replaceStarSpace]
      rw [if_neg ?hc, ih h2]
      case hc =>
        rintro ⟨rfl, rfl⟩
        simp at h1
      
theorem noSS_cons_space (X : Str) : noStarSpace (' ' :: X) = noStarSpace X := by
  cases X with
  | nil => rfl
  | cons y rest => simp [noStarSpace]

theorem noSS_cons_star (ch : Char) (t : Str) (hch : (ch == ' ') = false) :
    noStarSpace ('*' :: ch :: t) = noStarSpace (ch :: t) := by
  simp [noStarSpace, hch]

theorem noSS_of_no_star (s : Str) (h : ∀ c ∈ s, (c == '*') = false) :
    noStarSpace s = true := by
  induction s with
  | nil => rfl
  | cons a t ih =>
    cases t with
    | nil => rfl
    | cons b rest =>
      have ha : (a == '*') = false := h a (List.mem_cons_self _ _)
      have h2 : ∀ c ∈ b :: rest, (c == '*') = false :=
        fun c hc => h c (List.mem_cons_of_mem _ hc)
      simp only [noStarSpace, Bool.and_eq_true]
      exact ⟨by simp [ha], ih h2⟩

theorem noSS_app (w : Str) (x : Char) (s : Str) (hw : noStarSpace (w ++ [x]) = true)
    (hs : noStarSpace (x :: s) = true) : noStarSpace (w ++ x :: s) = true := by
  induction w with
  | nil => exact hs
  | cons a w2 ih =>
    cases w2 with
    | nil =>
      simp only [List.cons_append, List.nil_append, noStarSpace, Bool.and_eq_true] at hw ⊢
      exact ⟨hw.1, hs⟩
    | cons b w3 =>
      simp only [List.cons_append, noStarSpace, Bool.and_eq_true] at hw ⊢
      exact ⟨hw.1, ih hw.2⟩

theorem noSS_join (ws : List Str)
    (h : ∀ w ∈ ws, noStarSpace (w ++ [' ']) = true ∧ noStarSpace w = true) :
    noStarSpace (joinSp ws) = true := by
  induction ws with
  | nil => rfl
  | cons w ws2 ih =>
    cases ws2 with
    | nil => exact (h w (List.mem_cons_self _ _)).2
    | cons w2 ws3 =>
      rw [joinSp_cons _ _ (by simp)]
      refine noSS_app w ' ' (joinSp (w2 :: ws3)) (h w (List.mem_cons_self _ _)).1 ?_
      rw [noSS_cons_space]
      exact ih (fun x hx => h x (List.mem_cons_of_mem _ hx))

theorem joinCommaSp_cons (t : Str) (ts : List Str) (h : ts ≠ []) :
    joinCommaSp (t :: ts) = t ++ ',' :: ' ' :: joinCommaSp ts := by
  cases ts with
  | nil => exact absurd rfl h
  | cons t2 ts2 => rfl

theorem splitCSgo_sep (f : Str) (hf : ∀ c ∈ f, ¬(c = ',')) :
    ∀ (acc rest : Str),
    splitCommaSpaceGo acc (f ++ ',' :: ' ' :: rest) =
      (acc.reverse ++ f) :: splitCommaSpaceGo [] rest := by
  induction f with
  | nil =>
    intro acc rest
    simp only [List.nil_append, splitCommaSpaceGo]
    rw [if_pos ⟨trivial, trivial⟩]
    simp
  | cons x f2 ih =>
    intro acc rest
    have hx : ¬(x = ',') := hf x (List.mem_cons_self _ _)
    have h2 : ∀ c ∈ f2, ¬(c = ',') := fun c hc => hf c (List.mem_cons_of_mem _ hc)
    cases f2 with
    | nil =>
      simp only [List.cons_append, List.nil_append, splitCommaSpaceGo]
      rw [if_neg (fun hp => hx hp.1), if_pos ⟨trivial, trivial⟩]
      simp
    | cons y f3 =>
      rw [show (x :: y :: f3) ++ ',' :: ' ' :: rest = x :: y :: (f3 ++ ',' :: ' ' :: rest)
        from rfl]
      simp only [splitCommaSpaceGo]
      rw [if_neg (fun hp => hx hp.1)]
      rw [show y :: (f3 ++ ',' :: ' ' :: rest) = (y :: f3) ++ ',' :: ' ' :: rest from rfl,
        ih h2 (x :: acc) rest]
      simp

theorem splitCSgo_last (f : Str) (hf : ∀ c ∈ f, ¬(c = ',')) :
    ∀ acc : Str, splitCommaSpaceGo acc f = [acc.reverse ++ f] := by
  induction f with
  | nil => intro acc; simp [splitCommaSpaceGo]
  | cons x f2 ih =>
    intro acc
    have hx : ¬(x = ',') := hf x (List.mem_cons_self _ _)
    have h2 : ∀ c ∈ f2, ¬(c = ',') := fun c hc => hf c (List.mem_cons_of_mem _ hc)
    cases f2 with
    | nil => simp [splitCommaSpaceGo]
    | cons y f3 =>
      simp only [splitCommaSpaceGo]
      rw [if_neg (fun hp => hx hp.1), ih h2 (x :: acc)]
      simp

theorem splitCommaSpace_join (frags : List Str) (hne : frags ≠ [])
    (hfs : ∀ f ∈ frags, ∀ c ∈ f, ¬(c = ',')) :
    splitCommaSpace (joinCommaSp frags) = frags := by
  induction frags with
  | nil => exact absurd rfl hne
  | cons f frags2 ih =>
    have hf := hfs f (List.mem_cons_self _ _)
    have h2 : ∀ g ∈ frags2, ∀ c ∈ g, ¬(c = ',') :=
      fun g hg => hfs g (List.mem_cons_of_mem _ hg)
    cases frags2 with
    | nil =>
      show splitCommaSpaceGo [] f = [f]
      rw [splitCSgo_last f hf []]
      simp
    | cons g frags3 =>
      rw [joinCommaSp_cons _ _ (by simp)]
      show splitCommaSpaceGo [] (f ++ ',' :: ' ' :: joinCommaSp (g :: frags3)) = _
      rw [splitCSgo_sep f hf [] (joinCommaSp (g :: frags3))]
      rw [show ([] : Str).reverse ++ f = f by simp]
      exact congrArg (f :: ·) (ih (by simp) h2)

theorem joinSp_head (w : Str) (ws : List Str) (ch : Char) (t : Str) (hw : w = ch :: t) :
    ∃ t2, joinSp (w :: ws) = ch :: t2 := by
  cases ws with
  | nil => exact ⟨t, hw⟩
  | cons w2 ws2 =>
    refine ⟨t ++ ' ' :: joinSp (w2 :: ws2), ?_⟩
    rw [joinSp_cons _ _ (by simp), hw]
    rfl

theorem joinSp_last (pre : List Str) (u : Str) (d : Char) :
    ∃ U, joinSp (pre ++ [u ++ [d]]) = U ++ [d] := by
  induction pre with
  | nil => exact ⟨u, rfl⟩
  | cons w pre2 ih =>
    obtain ⟨U, hU⟩ := ih
    refine ⟨w ++ ' ' :: U, ?_⟩
    rw [show (w :: pre2) ++ [u ++ [d]] = w :: (pre2 ++ [u ++ [d]]) from rfl,
      joinSp_cons _ _ (by simp), hU]
    simp

theorem joinSp_mem (ws : List Str) : ∀ c ∈ joinSp ws, (∃ w ∈ ws, c ∈ w) ∨ c = ' ' := by
  induction ws with
  | nil => intro c hc; cases hc
  | cons w ws2 ih =>
    intro c hc
    cases ws2 with
    | nil => exact Or.inl ⟨w, List.mem_cons_self _ _, hc⟩
    | cons w2 ws3 =>
      rw [joinSp_cons _ _ (by simp)] at hc
      rcases List.mem_append.mp hc with h1 | h2
      · exact Or.inl ⟨w, List.mem_cons_self _ _, h1⟩
      · rcases List.mem_cons.mp h2 with rfl | h3
        · exact Or.inr rfl
        · rcases ih c h3 with ⟨w3, hw3, hcw⟩ | hsp
          · exact Or.inl ⟨w3, List.mem_cons_of_mem _ hw3, hcw⟩
          · exact Or.inr hsp

theorem joinCommaSp_head (f : Str) (fs : List Str) (ch : Char) (t : Str) (hf : f = ch :: t) :
    ∃ t2, joinCommaSp (f :: fs) = ch :: t2 := by
  cases fs with
  | nil => exact ⟨t, hf⟩
  | cons f2 fs2 =>
    refine ⟨t ++ ',' :: ' ' :: joinCommaSp (f2 :: fs2), ?_⟩
    rw [joinCommaSp_cons _ _ (by simp), hf]
    rfl

theorem joinCommaSp_last (pre : List Str) (u : Str) (d : Char) :
    ∃ U, joinCommaSp (pre ++ [u ++ [d]]) = U ++ [d] := by
  induction pre with
  | nil => exact ⟨u, rfl⟩
  | cons f pre2 ih =>
    obtain ⟨U, hU⟩ := ih
    refine ⟨f ++ ',' :: ' ' :: U, ?_⟩
    rw [show (f :: pre2) ++ [u ++ [d]] = f :: (pre2 ++ [u ++ [d]]) from rfl,
      joinCommaSp_cons _ _ (by simp), hU]
    simp

theorem joinCommaSp_mem (fs : List Str) :
    ∀ c ∈ joinCommaSp fs, (∃ f ∈ fs, c ∈ f) ∨ c = ',' ∨ c = ' ' := by
  induction fs with
  | nil => intro c hc; cases hc
  | cons f fs2 ih =>
    intro c hc
    cases fs2 with
    | nil => exact Or.inl ⟨f, List.mem_cons_self _ _, hc⟩
    | cons f2 fs3 =>
      rw [joinCommaSp_cons _ _ (by simp)] at hc
      rcases List.mem_append.mp hc with h1 | h2
      · exact Or.inl ⟨f, List.mem_cons_self _ _, h1⟩
      · rcases List.mem_cons.mp h2 with rfl | h3
        · exact Or.inr (Or.inl rfl)
        · rcases List.mem_cons.mp h3 with rfl | h4
          · exact Or.inr (Or.inr rfl)
          · rcases ih c h4 with ⟨f3, hf3, hcf⟩ | hrest
            · exact Or.inl ⟨f3, List.mem_cons_of_mem _ hf3, hcf⟩
            · exact Or.inr hrest

theorem splitFirstParen_app (A : Str) (t : Str) (h : ∀ c ∈ A, ¬(c = '(')) :
    splitFirstParen (A ++ '(' :: t) = some (A, t) := by
  induction A with
  | nil =>
    show splitFirstParen ('(' :: t) = some ([], t)
    simp [splitFirstParen]
  | cons a A2 ih =>
    rw [show (a :: A2) ++ '(' :: t = a :: (A2 ++ '(' :: t) from rfl]
    simp only [splitFirstParen]
    rw [if_neg (h a (List.mem_cons_self _ _)), ih (fun c hc => h c (List.mem_cons_of_mem _ hc))]
    rfl

theorem stripParen_app (J : Str)
    (hh : ∃ ch t, J = ch :: t ∧ parenSemiChars.contains ch = false)
    (hl : ∃ u d, J = u ++ [d] ∧ parenSemiChars.contains d = false) :
    pyStripChars parenSemiChars (J ++ closeParenSemi) = J := by
  obtain ⟨ch, t, hJh, hch⟩ := hh
  obtain ⟨u, d, hJl, hd⟩ := hl
  unfold pyStripChars
  have h1 : List.dropWhile (fun c => parenSemiChars.contains c) (J ++ closeParenSemi) =
      J ++ closeParenSemi := by
    rw [hJh, show (ch :: t) ++ closeParenSemi = ch :: (t ++ closeParenSemi) from rfl,
      dropWhile_cons_false _ _ _ hch]
  rw [h1]
  unfold dropLastWhile
  have h2 : (J ++ closeParenSemi).reverse = ';' :: ')' :: J.reverse := by
    rw [show (closeParenSemi : Str) = [')'] ++ [';'] from by decide, ← List.append_assoc]
    simp [List.reverse_append]
  rw [h2]
  rw [List.dropWhile_cons, if_pos (show (parenSemiChars.contains ';') = true by decide)]
  rw [List.dropWhile_cons, if_pos (show (parenSemiChars.contains ')') = true by decide)]
  have h3 : List.dropWhile (fun c => parenSemiChars.contains c) J.reverse = J.reverse := by
    rw [hJl]
    rw [show (u ++ [d]).reverse = d :: u.reverse by simp]
    rw [dropWhile_cons_false _ _ _ hd]
  rw [h3, List.reverse_reverse]

theorem beq_plain_false (c d : Char) (h : plainChar c = true) (hd : plainChar d = false) :
    (c == d) = false := by
  cases hbe : c == d
  · rfl
  · exact absurd (eq_of_beq hbe) (plainChar_ne c d h hd)

theorem qcat_joinSp (ws : List Str) (X : List Str) (hX : X ≠ []) :
    joinSp (ws ++ X) = qcat ws ++ joinSp X := by
  induction ws with
  | nil => simp [qcat]
  | cons w ws2 ih =>
    have hne : ws2 ++ X ≠ [] := fun he => hX (List.append_eq_nil.mp he).2
    rw [show (w :: ws2) ++ X = w :: (ws2 ++ X) from rfl, joinSp_cons _ _ hne, ih,
      qcat_cons_append]

theorem paramStr_words (p : Param) (h : FragReg p) :
    paramStr p = joinSp (qualWords p ++ p.ptype ::
      ((if p.const_pointer = true then [starConstTok] else []) ++
        [(if p.pointer = true then ['*'] else []) ++
          (p.pname ++ (if p.array = true then bracketsTok else []))])) := by
  unfold FragReg at h
  obtain ⟨hell, hfn, hT, hTk, hN⟩ := h
  rw [qcat_joinSp _ _ (by simp), joinSp_cons _ _ (by simp)]
  cases hcp : p.const_pointer
  · simp [paramStr, paramTail, qualStr_eq, hell, hfn, hcp, joinSp, List.append_assoc,
      show (bracketsTok : Str) = ['[', ']'] from by decide]
  · simp [paramStr, paramTail, qualStr_eq, hell, hfn, hcp, joinSp, List.append_assoc,
      show "*const ".data = starConstTok ++ [' '] from by decide,
      show (starConstTok : Str) = ['*', 'c', 'o', 'n', 's', 't'] from by decide,
      show (bracketsTok : Str) = ['[', ']'] from by decide]

theorem fragWords_shape (p : Param) (h : FragReg p) :
    ∀ w ∈ (qualWords p ++ p.ptype ::
      ((if p.const_pointer = true then [starConstTok] else []) ++
        [(if p.pointer = true then ['*'] else []) ++
          (p.pname ++ (if p.array = true then bracketsTok else []))])),
      w ≠ [] ∧ ∀ c ∈ w, pyIsSpace c = false := by
  unfold FragReg at h
  obtain ⟨hell, hfn, hT, hTk, hN⟩ := h
  intro w hw
  rcases List.mem_append.mp hw with h1 | h2
  · obtain ⟨hne, hnw, _⟩ := kw_shape w (qualWords_sub p w h1)
    exact ⟨hne, hnw⟩
  · rcases List.mem_cons.mp h2 with rfl | h3
    · exact ⟨hT.1, plainTok_nonspace _ hT⟩
    · rcases List.mem_append.mp h3 with h4 | h5
      · have hw2 : w ∈ [starConstTok] := mem_of_mem_ite h4
        rw [List.mem_singleton] at hw2
        subst hw2
        exact ⟨by decide, by decide⟩
      · rw [List.mem_singleton] at h5
        subst h5
        constructor
        · intro he
          exact hN.1 (List.append_eq_nil.mp (List.append_eq_nil.mp he).2).1
        · intro x hx
          rcases List.mem_append.mp hx with ha | hb
          · have hm := mem_of_mem_ite ha
            rw [List.mem_singleton] at hm
            subst hm; decide
          · rcases List.mem_append.mp hb with hc | hd
            · exact plainTok_nonspace _ hN x hc
            · have hm := mem_of_mem_ite hd
              rw [show (bracketsTok : Str) = ['[', ']'] from by decide] at hm
              simp only [List.mem_cons, List.not_mem_nil, or_false] at hm
              rcases hm with rfl | rfl <;> decide

theorem normWS_frag (p : Param) (h : FragReg p ∨ p = ellipsisParam) :
    normWS (paramStr p) = paramStr p := by
  rcases h with hr | rfl
  · rw [paramStr_words p hr]
    exact normWS_join _ (by simp) (fragWords_shape p hr)
  · decide

theorem noSS_tailword (po ar : Bool) (pn : Str) (hN : plainTok pn) (X : Str)
    (hX : ∀ c ∈ X, (c == '*') = false) :
    noStarSpace (((if po = true then ['*'] else []) ++
      (pn ++ (if ar = true then bracketsTok else []))) ++ X) = true := by
  obtain ⟨c1, t1, hNh, hNc⟩ := plainTok_head _ hN
  have hrest : ∀ c ∈ (pn ++ (if ar = true then bracketsTok else [])) ++ X,
      (c == '*') = false := by
    intro c hc
    rcases List.mem_append.mp hc with h1 | h2
    · rcases List.mem_append.mp h1 with h3 | h4
      · exact beq_plain_false c '*' (hN.2 c h3) (by decide)
      · have hm := mem_of_mem_ite h4
        rw [show (bracketsTok : Str) = ['[', ']'] from by decide] at hm
        simp only [List.mem_cons, List.not_mem_nil, or_false] at hm
        rcases hm with rfl | rfl <;> decide
    · exact hX c h2
  cases po
  · rw [show ((if (false : Bool) = true then ['*'] else []) : Str) = [] from rfl,
      List.nil_append]
    exact noSS_of_no_star _ hrest
  · rw [show ((if (true : Bool) = true then ['*'] else []) : Str) = ['*'] from rfl]
    rw [show (['*'] ++ (pn ++ (if ar = true then bracketsTok else []))) ++ X =
      '*' :: ((pn ++ (if ar = true then bracketsTok else [])) ++ X) by simp]
    rw [hNh, show ((c1 :: t1) ++ (if ar = true then bracketsTok else [])) ++ X =
      c1 :: ((t1 ++ (if ar = true then bracketsTok else [])) ++ X) by simp]
    rw [noSS_cons_star c1 _ (beq_plain_false c1 ' ' hNc (by decide))]
    refine noSS_of_no_star _ ?_
    intro c hc
    have hc2 : c ∈ ((c1 :: t1) ++ (if ar = true then bracketsTok else [])) ++ X := by
      simp only [List.cons_append, List.mem_cons, List.mem_append] at hc ⊢
      tauto
    rw [← hNh] at hc2
    exact hrest c hc2

theorem replace_frag (p : Param) (h : FragReg p ∨ p = ellipsisParam) :
    replaceStarSpace (paramStr p) = paramStr p := by
  rcases h with hr | rfl
  · have hr2 := hr
    unfold FragReg at hr2
    obtain ⟨hell, hfn, hT, hTk, hN⟩ := hr2
    refine replaceStarSpace_id _ ?_
    rw [paramStr_words p hr]
    refine noSS_join _ ?_
    intro w hw
    rcases List.mem_append.mp hw with h1 | h2
    · exact (show ∀ x ∈ kwList, noStarSpace (x ++ [' ']) = true ∧ noStarSpace x = true
        by decide) w (qualWords_sub p w h1)
    · rcases List.mem_cons.mp h2 with rfl | h3
      · have hstar : ∀ c ∈ p.ptype ++ [' '], (c == '*') = false := by
          intro c hc
          rcases List.mem_append.mp hc with ha | hb
          · exact beq_plain_false c '*' (hT.2 c ha) (by decide)
          · rw [List.mem_singleton] at hb
            subst hb; decide
        constructor
        · exact noSS_of_no_star _ hstar
        · exact noSS_of_no_star _ (fun c hc => hstar c (List.mem_append_left _ hc))
      · rcases List.mem_append.mp h3 with h4 | h5
        · have hw2 : w ∈ [starConstTok] := mem_of_mem_ite h4
          rw [List.mem_singleton] at hw2
          subst hw2
          exact ⟨by decide, by decide⟩
        · rw [List.mem_singleton] at h5
          subst h5
          constructor
          · exact noSS_tailword p.pointer p.array p.pname hN [' ']
              (by intro c hc; rw [List.mem_singleton] at hc; subst hc; decide)
          · have := noSS_tailword p.pointer p.array p.pname hN []
              (by intro c hc; cases hc)
            rwa [List.append_nil] at this
  · decide

theorem plain_contains_false (ch : Char) (h : plainChar ch = true) :
    parenSemiChars.contains ch = false := by
  cases hc : parenSemiChars.contains ch
  · rfl
  · exfalso
    have hm : ch ∈ parenSemiChars := by
      have h2 := hc
      simp only [parenSemiChars, List.contains_cons, Bool.or_eq_true] at h2
      rcases h2 with h3 | h3 | h3 | h3
      · exact (eq_of_beq h3) ▸ List.mem_cons_self _ _
      · rw [eq_of_beq h3]
        exact List.mem_cons_of_mem _ (List.mem_cons_self _ _)
      · rw [eq_of_beq h3]
        exact List.mem_cons_of_mem _ (List.mem_cons_of_mem _ (List.mem_cons_self _ _))
      · simp at h3
    simp only [parenSemiChars, List.mem_cons, List.not_mem_nil, or_false] at hm
    rcases hm with rfl | rfl | rfl <;> exact absurd h (by decide)

theorem qcat_head_plain (ws : List Str) (rest : Str) (hws : ∀ w ∈ ws, w ∈ kwList)
    (hrest : ∃ ch t, rest = ch :: t ∧ plainChar ch = true) :
    ∃ ch t, qcat ws ++ rest = ch :: t ∧ plainChar ch = true := by
  cases ws with
  | nil =>
    obtain ⟨ch, t, he, hc⟩ := hrest
    exact ⟨ch, t, by simp [qcat, he], hc⟩
  | cons w ws2 =>
    have hwkw := hws w (List.mem_cons_self _ _)
    obtain ⟨hne, _, hpl⟩ := kw_shape w hwkw
    obtain ⟨ch, t, rfl⟩ : ∃ ch t, w = ch :: t := by
      cases w with
      | nil => exact absurd rfl hne
      | cons ch t => exact ⟨ch, t, rfl⟩
    exact ⟨ch, t ++ ' ' :: (qcat ws2 ++ rest), by rw [qcat_cons_append]; rfl,
      hpl ch (List.mem_cons_self _ _)⟩

theorem tail_last2 (po ar : Bool) (pn : Str) (hN : plainTok pn) :
    ∃ U dl, (if po = true then ['*'] else []) ++ (pn ++ (if ar = true then bracketsTok else []))
      = U ++ [dl] ∧ parenSemiChars.contains dl = false := by
  obtain ⟨u1, d1, hNl, hNd⟩ := plainTok_concat _ hN
  cases ar
  · refine ⟨(if po = true then ['*'] else []) ++ u1, d1, ?_, plain_contains_false d1 hNd⟩
    rw [hNl]; simp
  · refine ⟨(if po = true then ['*'] else []) ++ (pn ++ ['[']), ']', ?_, by decide⟩
    rw [show bracketsTok = ['[', ']'] from by decide]
    simp

theorem paramStr_head_ok (p : Param) (h : FragReg p ∨ p = ellipsisParam) :
    ∃ ch t, paramStr p = ch :: t ∧ parenSemiChars.contains ch = false := by
  rcases h with hr | rfl
  · have hr2 := hr
    unfold FragReg at hr2
    obtain ⟨hell, hfn, hT, hTk, hN⟩ := hr2
    obtain ⟨c0, t0, hTh, hTc⟩ := plainTok_head _ hT
    have hps : paramStr p = qcat (qualWords p) ++ (p.ptype ++ ' ' :: paramTail p) := by
      unfold paramStr
      rw [if_neg (by simp [hell]), qualStr_eq]
      simp [List.append_assoc]
    obtain ⟨ch, t, hq, hpl⟩ := qcat_head_plain (qualWords p) (p.ptype ++ ' ' :: paramTail p)
      (qualWords_sub p) ⟨c0, t0 ++ ' ' :: paramTail p, by rw [hTh]; rfl, hTc⟩
    exact ⟨ch, t, by rw [hps, hq], plain_contains_false ch hpl⟩
  · exact ⟨'.', ['.', '.'], by decide, by decide⟩

theorem paramStr_last_ok (p : Param) (h : FragReg p ∨ p = ellipsisParam) :
    ∃ U dl, paramStr p = U ++ [dl] ∧ parenSemiChars.contains dl = false := by
  rcases h with hr | rfl
  · have hr2 := hr
    unfold FragReg at hr2
    obtain ⟨hell, hfn, hT, hTk, hN⟩ := hr2
    obtain ⟨U0, dl, hTl, hdl⟩ := tail_last2 p.pointer p.array p.pname hN
    rw [paramStr_words p hr]
    rw [show qualWords p ++ p.ptype ::
        ((if p.const_pointer = true then [starConstTok] else []) ++
          [(if p.pointer = true then ['*'] else []) ++
            (p.pname ++ (if p.array = true then bracketsTok else []))]) =
      (qualWords p ++ p.ptype :: (if p.const_pointer = true then [starConstTok] else [])) ++
        [(if p.pointer = true then ['*'] else []) ++
          (p.pname ++ (if p.array = true then bracketsTok else []))] by simp]
    rw [hTl]
    obtain ⟨U, hU⟩ := joinSp_last
      (qualWords p ++ p.ptype :: (if p.const_pointer = true then [starConstTok] else [])) U0 dl
    exact ⟨U, dl, hU, hdl⟩
  · exact ⟨['.', '.'], '.', by decide, by decide⟩

theorem paramStr_comma_free (p : Param) (h : FragReg p ∨ p = ellipsisParam) :
    ∀ c ∈ paramStr p, ¬(c = ',') := by
  rcases h with hr | rfl
  · have hr2 := hr
    unfold FragReg at hr2
    obtain ⟨hell, hfn, hT, hTk, hN⟩ := hr2
    intro c hc
    rw [paramStr_words p hr] at hc
    rcases joinSp_mem _ c hc with ⟨w, hw, hcw⟩ | rfl
    · rcases List.mem_append.mp hw with h1 | h2
      · obtain ⟨_, _, hpl⟩ := kw_shape w (qualWords_sub p w h1)
        exact plainChar_ne c ',' (hpl c hcw) (by decide)
      · rcases List.mem_cons.mp h2 with rfl | h3
        · exact plainChar_ne c ',' (hT.2 c hcw) (by decide)
        · rcases List.mem_append.mp h3 with h4 | h5
          · have hw2 : w ∈ [starConstTok] := mem_of_mem_ite h4
            rw [List.mem_singleton] at hw2
            subst hw2
            exact (show ∀ x ∈ starConstTok, ¬(x = ',') by decide) c hcw
          · rw [List.mem_singleton] at h5
            subst h5
            rcases List.mem_append.mp hcw with ha | hb
            · have hm := mem_of_mem_ite ha
              rw [List.mem_singleton] at hm
              subst hm; decide
            · rcases List.mem_append.mp hb with hc2 | hd
              · exact plainChar_ne c ',' (hN.2 c hc2) (by decide)
              · have hm := mem_of_mem_ite hd
                rw [show (bracketsTok : Str) = ['[', ']'] from by decide] at hm
                simp only [List.mem_cons, List.not_mem_nil, or_false] at hm
                rcases hm with rfl | rfl <;> decide
    · decide
  · exact fun c hc => (show ∀ x ∈ dots, ¬(x = ',') by decide) c hc

theorem paramStr_ne_void (p : Param) (h : FragReg p ∨ p = ellipsisParam) :
    ¬(paramStr p = voidTok) := by
  rcases h with hr | rfl
  · have hr2 := hr
    unfold FragReg at hr2
    obtain ⟨hell, hfn, hT, hTk, hN⟩ := hr2
    intro he
    have hsp : ' ' ∈ paramStr p := by
      unfold paramStr
      rw [if_neg (by simp [hell])]
      exact List.mem_append_right _ (List.mem_cons_self _ _)
    rw [he] at hsp
    exact absurd hsp (by decide)
  · decide

theorem parseDefParam_frag (p : Param) (h : FragReg p ∨ p = ellipsisParam) :
    parseDefParam (paramStr p) = Except.ok p := by
  have hpp : parseParam (paramStr p) = Except.ok p := by
    rcases h with hr | rfl
    · exact parse_print_reg p hr
    · decide
  have hn := normWS_frag p h
  have hr2 := replace_frag p h
  unfold parseDefParam
  rw [hn, hr2]
  show (match parseParam (paramStr p) with
      | Except.error e => Except.error e
      | Except.ok q => if paramStr q = paramStr p then Except.ok q
        else Except.error PErr.assertRoundTrip) = Except.ok p
  rw [hpp]
  show (if paramStr p = paramStr p then Except.ok p else Except.error PErr.assertRoundTrip)
      = Except.ok p
  rw [if_pos rfl]

theorem mapExcept_roundtrip (ps : List Param)
    (h : ∀ p ∈ ps, FragReg p ∨ p = ellipsisParam) :
    mapExcept parseDefParam (ps.map paramStr) = Except.ok ps := by
  induction ps with
  | nil => rfl
  | cons p ps2 ih =>
    rw [List.map_cons]
    simp only [mapExcept]
    rw [parseDefParam_frag p (h p (List.mem_cons_self _ _)),
      ih (fun q hq => h q (List.mem_cons_of_mem _ hq))]

theorem parse_line_ok (retWords : List Str) (fname : Str) (ps : List Param)
    (h : LineOK retWords fname ps) :
    parseDefLine (lineOf retWords fname ps) =
      Except.ok (Defn.mk (joinSp retWords) fname ps) := by
  unfold LineOK at h
  obtain ⟨hrne, hrw, hfn, hpne, hps⟩ := h
  obtain ⟨p0, ps2, rfl⟩ : ∃ p0 ps2, ps = p0 :: ps2 := by
    cases ps with
    | nil => exact absurd rfl hpne
    | cons a b => exact ⟨a, b, rfl⟩
  obtain ⟨c1, t1, hFh, hFc⟩ := plainTok_head _ hfn
  rcases List.eq_nil_or_concat retWords with h0 | ⟨pre, wl, hco⟩
  · exact absurd h0 hrne
  rw [List.concat_eq_append] at hco
  have hwl : plainTok wl :=
    hrw wl (by rw [hco]; exact List.mem_append_right _ (List.mem_cons_self _ _))
  obtain ⟨u2, d2, hWl, hWd⟩ := plainTok_concat wl hwl
  have hRlast : ∃ U d, joinSp retWords = U ++ [d] ∧ pyIsSpace d = false := by
    obtain ⟨U, hU⟩ := joinSp_last pre u2 d2
    exact ⟨U, d2, by rw [hco, hWl]; exact hU, plainChar_not_space d2 hWd⟩
  have hrsp : pyRsplit1 (joinSp retWords ++ ' ' :: fname) =
      some (joinSp retWords, fname) :=
    pyRsplit1_app _ _ hRlast hfn.1 (plainTok_nonspace _ hfn)
  have hnp : ∀ c ∈ joinSp retWords ++ ' ' :: fname, ¬(c = '(') := by
    intro c hc
    rcases List.mem_append.mp hc with h1 | h2
    · rcases joinSp_mem _ c h1 with ⟨w, hw, hcw⟩ | rfl
      · exact plainChar_ne c '(' ((hrw w hw).2 c hcw) (by decide)
      · decide
    · rcases List.mem_cons.mp h2 with rfl | h3
      · decide
      · exact plainChar_ne c '(' (hfn.2 c h3) (by decide)
  have hline : lineOf retWords fname (p0 :: ps2) =
      (joinSp retWords ++ ' ' :: fname) ++
        '(' :: (joinCommaSp ((p0 :: ps2).map paramStr) ++ closeParenSemi) := by
    unfold lineOf
    simp [List.append_assoc]
  have hJstrip : pyStripChars parenSemiChars
      (joinCommaSp ((p0 :: ps2).map paramStr) ++ closeParenSemi) =
      joinCommaSp ((p0 :: ps2).map paramStr) := by
    refine stripParen_app _ ?_ ?_
    · obtain ⟨ch, t, hph, hcont⟩ := paramStr_head_ok p0 (hps p0 (List.mem_cons_self _ _))
      obtain ⟨t2, hJh⟩ := joinCommaSp_head (paramStr p0) (ps2.map paramStr) ch t hph
      exact ⟨ch, t2, by rw [List.map_cons]; exact hJh, hcont⟩
    · rcases List.eq_nil_or_concat (p0 :: ps2) with h0 | ⟨pre2, plast, hco2⟩
      · cases h0
      · rw [List.concat_eq_append] at hco2
        have hpl2 : plast ∈ p0 :: ps2 := by
          rw [hco2]; exact List.mem_append_right _ (List.mem_cons_self _ _)
        obtain ⟨U3, dl, hpl, hcont⟩ := paramStr_last_ok plast (hps plast hpl2)
        obtain ⟨U4, hJl⟩ := joinCommaSp_last (pre2.map paramStr) U3 dl
        refine ⟨U4, dl, ?_, hcont⟩
        rw [hco2, List.map_append, List.map_singleton, hpl]
        exact hJl
  have hcomma : ∀ f ∈ (p0 :: ps2).map paramStr, ∀ c ∈ f, ¬(c = ',') := by
    intro f hf
    obtain ⟨q, hq, rfl⟩ := List.mem_map.mp hf
    exact paramStr_comma_free q (hps q hq)
  have hsplitJ : splitCommaSpace (joinCommaSp ((p0 :: ps2).map paramStr)) =
      (p0 :: ps2).map paramStr :=
    splitCommaSpace_join _ (by simp) hcomma
  have hvoid : ¬(paramStr p0 = voidTok) := paramStr_ne_void p0 (hps p0 (List.mem_cons_self _ _))
  have hmap : mapExcept parseDefParam ((p0 :: ps2).map paramStr) = Except.ok (p0 :: ps2) :=
    mapExcept_roundtrip _ hps
  have hpf : prefixB ['*'] fname = false := by
    rw [hFh, prefixB_single]
    cases hbe : '*' == c1
    · rfl
    · exact absurd (eq_of_beq hbe).symm (plainChar_ne c1 '*' hFc (by decide))
  rw [hline]
  unfold parseDefLine
  rw [splitFirstParen_app _ _ hnp]
  show (match pyRsplit1 (joinSp retWords ++ ' ' :: fname) with
      | none => Except.error PErr.valueError
      | some (rt0, nm0) =>
        let rn := if prefixB ['*'] nm0 = true then (rt0 ++ ['*'], nm0.drop 1) else (rt0, nm0);
        let plist := splitCommaSpace (pyStripChars parenSemiChars
          (joinCommaSp ((p0 :: ps2).map paramStr) ++ closeParenSemi));
        match plist with
        | [] => Except.ok (Defn.mk rn.1 rn.2 [])
        | v :: _ =>
          if v = voidTok then Except.ok (Defn.mk rn.1 rn.2 [])
          else
            match mapExcept parseDefParam plist with
            | Except.error e => Except.error e
            | Except.ok qs => Except.ok (Defn.mk rn.1 rn.2 qs))
      = Except.ok (Defn.mk (joinSp retWords) fname (p0 :: ps2))
  rw [hrsp]
  show (let rn := if prefixB ['*'] fname = true
        then (joinSp retWords ++ ['*'], fname.drop 1) else (joinSp retWords, fname);
      let plist := splitCommaSpace (pyStripChars parenSemiChars
        (joinCommaSp ((p0 :: ps2).map paramStr) ++ closeParenSemi));
      match plist with
      | [] => Except.ok (Defn.mk rn.1 rn.2 [])
      | v :: _ =>
        if v = voidTok then Except.ok (Defn.mk rn.1 rn.2 [])
        else
          match mapExcept parseDefParam plist with
          | Except.error e => Except.error e
          | Except.ok qs => Except.ok (Defn.mk rn.1 rn.2 qs))
      = Except.ok (Defn.mk (joinSp retWords) fname (p0 :: ps2))
  rw [hpf, if_neg (show ¬(false = true) by decide), hJstrip, hsplitJ]
  show (if paramStr p0 = voidTok then Except.ok (Defn.mk (joinSp retWords) fname [])
      else
        match mapExcept parseDefParam ((p0 :: ps2).map paramStr) with
        | Except.error e => Except.error e
        | Except.ok qs => Except.ok (Defn.mk (joinSp retWords) fname qs))
      = Except.ok (Defn.mk (joinSp retWords) fname (p0 :: ps2))
  rw [if_neg hvoid, hmap]

theorem reprDefn_line (retWords : List Str) (fname : Str) (ps : List Param) :
    reprDefn (Defn.mk (joinSp retWords) fname ps) ++ [';'] = lineOf retWords fname ps := by
  unfold reprDefn lineOf
  simp [List.append_assoc, show (closeParenSemi : Str) = [')'] ++ [';'] from by decide]

/-- C2: amended declaration round-trip law.  For every canonical declaration
line (space-separated identifier-like return-type words, an identifier-like
name, and a nonempty comma-space separated list of canonical parameter
fragments), the declaration parser accepts the line and reconstructs the
components exactly, and re-serializing the resulting declaration reproduces
the line up to the trailing semicolon, which the serializer never emits.
The unrestricted claim is refuted separately: the serializer drops the
statement terminator and moves a pointer star from the name to the return
type, so accepted lines such as a pointer-returning declaration do not
round-trip byte for byte. -/
theorem decl_roundtrip_amended (retWords : List Str) (fname : Str) (ps : List Param)
    (h : LineOK retWords fname ps) :
    parseDefLine (lineOf retWords fname ps) =
      Except.ok (Defn.mk (joinSp retWords) fname ps) ∧
    reprDefn (Defn.mk (joinSp retWords) fname ps) ++ [';'] = lineOf retWords fname ps :=
  ⟨parse_line_ok retWords fname ps h, reprDefn_line retWords fname ps⟩

theorem decl_roundtrip_amended_witness :
    LineOK ["unsigned".data, "int".data] "open".data
      [intParam "fd".data, ellipsisParam] ∧
    (parseDefLine (lineOf ["unsigned".data, "int".data] "open".data
        [intParam "fd".data, ellipsisParam]) =
      Except.ok (Defn.mk (joinSp ["unsigned".data, "int".data]) "open".data
        [intParam "fd".data, ellipsisParam]) ∧
    reprDefn (Defn.mk (joinSp ["unsigned".data, "int".data]) "open".data
        [intParam "fd".data, ellipsisParam]) ++ [';'] =
      lineOf ["unsigned".data, "int".data] "open".data
        [intParam "fd".data, ellipsisParam]) :=
  ⟨by decide, decl_roundtrip_amended _ _ _ (by decide)⟩
